import Mathlib

/-!
# numgo: dense N-dimensional arrays with trailing-axis broadcasting

A shallow embedding of `src/numgo.go` and `src/arithmetic.go`.

* A Go pointer `*Arrayf` is an `Option (Arrayf F)`; `none` is the nil pointer.
* A method that mutates its receiver and returns it is a function returning the
  new value of the receiver.
* A run-time panic (nil dereference, integer division by zero, index out of
  range) is the `Res.panic` outcome.
* `uint64` values are natural numbers, multiplication is taken modulo `2 ^ 64`.
* `float64` is a type parameter `F` carrying the operations the code uses
  (`Float64 F`); no law is assumed about them, so every theorem holds for the
  IEEE-754 doubles in particular.
* The worker goroutines of a broadcast operation are run one after the other in
  the order they are started.
* The diagnostic string written when the build constant `debug` is set is
  write-only and is left out; slices are lists, without a memory limit.
-/

namespace numgo

/-! ## Data model -/

/-- Modelled from the spec: the error values `NilError`, `ShapeError` and
`DivZeroError` that `arithmetic.go` stores in the error slot are declared in a file
that is not part of the sources; the spec lists exactly these three kinds. -/
inductive NgError where
  | NilError
  | ShapeError
  | DivZeroError
  deriving DecidableEq, Repr

/-- Run-time failures of the Go program. -/
inductive Panic where
  | nilDeref
  | divByZero
  | indexOutOfRange
  deriving DecidableEq, Repr

/-- Outcome of a call: a value, or a run-time panic. -/
inductive Res (α : Type) where
  | ok (v : α)
  | panic (p : Panic)
  deriving DecidableEq, Repr

/-- The `float64` operations used by the program. `zero` is the value of a freshly
made slice element, `nan` is `math.NaN()`, `isZero v` is the test `v == 0`,
`pow` is `math.Pow`. -/
class Float64 (F : Type) where
  zero : F
  nan : F
  add : F → F → F
  sub : F → F → F
  mul : F → F → F
  div : F → F → F
  pow : F → F → F
  isZero : F → Bool

/-- The struct `Arrayf`. The field `err` is the error slot read and written by
`arithmetic.go` (`nil` is `none`). -/
structure Arrayf (F : Type) where
  shape : List Nat
  strides : List Nat
  data : List F
  err : Option NgError
  deriving DecidableEq, Repr

/-- The value `new(Arrayf)`. -/
def Arrayf.new (F : Type) : Arrayf F :=
  { shape := [], strides := [], data := [], err := none }

/-- Wrap-around of `uint64` arithmetic. -/
def wrap64 (n : Nat) : Nat := n % 2 ^ 64

/-- The conversion `uint64(v)` of a Go `int`. -/
def toU64 (v : Int) : Nat := (v % 2 ^ 64).toNat

/-! ## Construction (`numgo.go`) -/

/-- The first loop of `Create`: `nil` at an extent `≤ 0`, otherwise the size
`sz` and the converted shape `sh`. -/
def sizeLoop : List Int → Nat → List Nat → Option (Nat × List Nat)
  | [], sz, sh => some (sz, sh)
  | v :: vs, sz, sh =>
    if v ≤ 0 then none
    else sizeLoop vs (wrap64 (sz * toU64 v)) (sh ++ [toU64 v])

/-- The first loop of the internal `create` (extents are `uint64`). -/
def sizeLoopU : List Nat → Nat → List Nat → Option (Nat × List Nat)
  | [], sz, sh => some (sz, sh)
  | v :: vs, sz, sh =>
    if v ≤ 0 then none
    else sizeLoopU vs (wrap64 (sz * v)) (sh ++ [v])

/-- The loop `for i := len(strides)-1; i > 0; i-- { strides[i] = tmp; tmp *= sh[i-1] }`
followed by `strides[0] = tmp`. The first argument is the loop variable `i`. -/
def stridesLoop (sh : List Nat) : Nat → Nat → List Nat → List Nat
  | 0, tmp, st => st.set 0 tmp
  | i + 1, tmp, st => stridesLoop sh i (wrap64 (tmp * sh.getD i 0)) (st.set (i + 1) tmp)

/-- The stride table computed from a shape: `make([]uint64, len(sh)+1)` filled by
`stridesLoop`. -/
def mkStrides (sh : List Nat) : List Nat :=
  stridesLoop sh sh.length 1 (List.replicate (sh.length + 1) 0)

/-- The constructor `Create(shape ...int)`: nil at an extent `≤ 0`, otherwise shape,
zeroed data of `sz` elements and the stride table. -/
def Create {F : Type} [Float64 F] (shape : List Int) : Option (Arrayf F) :=
  match sizeLoop shape 1 [] with
  | none => none
  | some (sz, sh) =>
    some { shape := sh, strides := mkStrides sh,
           data := List.replicate sz Float64.zero, err := none }

/-- The internal `create(shape ...uint64)`. -/
def create {F : Type} [Float64 F] (shape : List Nat) : Option (Arrayf F) :=
  match sizeLoopU shape 1 [] with
  | none => none
  | some (sz, sh) =>
    some { shape := sh, strides := mkStrides sh,
           data := List.replicate sz Float64.zero, err := none }

/-! ## Arithmetic (`arithmetic.go`) -/

/-- The broadcast check
`for i, j := len(b.shape)-1, len(a.shape)-1; i >= 0; i, j = i-1, j-1`:
`ok false` at the first pair `a.shape[j] != b.shape[i]`, `ok true` when the loop
runs out. The first argument is `i + 1`, the second is `j`. -/
def shapeLoop (ash bsh : List Nat) : Nat → Int → Res Bool
  | 0, _ => .ok true
  | i + 1, j =>
    if j < 0 then .panic .indexOutOfRange
    else
      match ash[j.toNat]?, bsh[i]? with
      | some x, some y => if x ≠ y then .ok false else shapeLoop ash bsh i (j - 1)
      | _, _ => .panic .indexOutOfRange

/-- The broadcast check of `a.shape` against `b.shape` from its initial state. -/
def shapeCheck (ash bsh : List Nat) : Res Bool :=
  shapeLoop ash bsh bsh.length ((ash.length : Int) - 1)

/-- One worker `for i, v := range b.data { a.data[i+m] = op(a.data[i+m], v) }`,
from index `i` on. -/
def tileLoop {F : Type} (op : F → F → F) (m : Nat) : List F → Nat → List F → Res (List F)
  | [], _, ad => .ok ad
  | v :: vs, i, ad =>
    match ad[i + m]? with
    | none => .panic .indexOutOfRange
    | some x => tileLoop op m vs (i + 1) (ad.set (i + m) (op x v))

/-- The workers `for k := 0; k < mul; k++ { go worker(k * len(b.data)) }`, one after
the other. The first argument counts the workers still to start, the second is `k`. -/
def fanOut {F : Type} (op : F → F → F) (bd : List F) : Nat → Nat → List F → Res (List F)
  | 0, _, ad => .ok ad
  | n + 1, k, ad =>
    match tileLoop op (k * bd.length) bd 0 ad with
    | .panic p => .panic p
    | .ok ad1 => fanOut op bd n (k + 1) ad1

/-- The statement `mul := len(a.data) / len(b.data)` followed by the workers. -/
def broadcast {F : Type} (op : F → F → F) (ad bd : List F) : Res (List F) :=
  if bd.length = 0 then .panic .divByZero
  else fanOut op bd (ad.length / bd.length) 0 ad

/-- The part of `Add`, `Subtr` and `Mult` after the `switch`: broadcast check, then
the workers. -/
def checkedBroadcast {F : Type} (op : F → F → F) (a b : Arrayf F) : Res (Arrayf F) :=
  match shapeCheck a.shape b.shape with
  | .panic p => .panic p
  | .ok false => .ok { a with err := some .ShapeError }
  | .ok true =>
    match broadcast op a.data b.data with
    | .panic p => .panic p
    | .ok d => .ok { a with data := d }

/-- The method `func (a *Arrayf) Add(b *Arrayf) *Arrayf`. -/
def Arrayf.Add {F : Type} [Float64 F] (a b : Option (Arrayf F)) : Res (Arrayf F) :=
  match a with
  | none => .ok { Arrayf.new F with err := some .NilError }
  | some a =>
    if a.err ≠ none then .ok a
    else
      match b with
      -- `a.err = NilError; fallthrough` enters `a.err = b.err` with `b == nil`
      | none => .panic .nilDeref
      | some b =>
        if b.err ≠ none then .ok { a with err := b.err }
        else if a.shape.length < b.shape.length then .ok { a with err := some .ShapeError }
        else checkedBroadcast Float64.add a b

/-- The method `func (a *Arrayf) Subtr(b *Arrayf) *Arrayf`. -/
def Arrayf.Subtr {F : Type} [Float64 F] (a b : Option (Arrayf F)) : Res (Arrayf F) :=
  match a with
  | none => .ok { Arrayf.new F with err := some .NilError }
  | some a =>
    if a.err ≠ none then .ok a
    else
      match b with
      -- `a.err = NilError; fallthrough` enters `a.err = b.err` with `b == nil`
      | none => .panic .nilDeref
      | some b =>
        if b.err ≠ none then .ok { a with err := b.err }
        else if a.shape.length < b.shape.length then .ok { a with err := some .ShapeError }
        else checkedBroadcast Float64.sub a b

/-- The method `func (a *Arrayf) Mult(b *Arrayf) *Arrayf`. -/
def Arrayf.Mult {F : Type} [Float64 F] (a b : Option (Arrayf F)) : Res (Arrayf F) :=
  match a with
  | none => .ok { Arrayf.new F with err := some .NilError }
  | some a =>
    if a.err ≠ none then .ok a
    else
      match b with
      -- `a.err = NilError; fallthrough` enters `a.err = b.err` with `b == nil`
      | none => .panic .nilDeref
      | some b =>
        if b.err ≠ none then .ok { a with err := b.err }
        else if a.shape.length < b.shape.length then .ok { a with err := some .ShapeError }
        else checkedBroadcast Float64.mul a b

/-- One worker of `Div`: a zero divisor stores `NaN` and sets `DivZeroError` when
the error slot is empty, any other divisor divides. State: data and error slot. -/
def divTileLoop {F : Type} [Float64 F] (m : Nat) :
    List F → Nat → List F × Option NgError → Res (List F × Option NgError)
  | [], _, s => .ok s
  | v :: vs, i, (ad, e) =>
    match ad[i + m]? with
    | none => .panic .indexOutOfRange
    | some x =>
      if Float64.isZero v then
        divTileLoop m vs (i + 1)
          (ad.set (i + m) Float64.nan, if e = none then some .DivZeroError else e)
      else divTileLoop m vs (i + 1) (ad.set (i + m) (Float64.div x v), e)

/-- The workers of `Div`, one after the other. -/
def divFanOut {F : Type} [Float64 F] (bd : List F) :
    Nat → Nat → List F × Option NgError → Res (List F × Option NgError)
  | 0, _, s => .ok s
  | n + 1, k, s =>
    match divTileLoop (k * bd.length) bd 0 s with
    | .panic p => .panic p
    | .ok s1 => divFanOut bd n (k + 1) s1

/-- The method `func (a *Arrayf) Div(b *Arrayf) *Arrayf`. A mismatch found by the broadcast
loop returns the receiver as it is. -/
def Arrayf.Div {F : Type} [Float64 F] (a b : Option (Arrayf F)) : Res (Arrayf F) :=
  match a with
  | none => .ok { Arrayf.new F with err := some .NilError }
  | some a =>
    if a.err ≠ none then .ok a
    else
      match b with
      -- `a.err = NilError; fallthrough` enters `a.err = b.err` with `b == nil`
      | none => .panic .nilDeref
      | some b =>
        if b.err ≠ none then .ok { a with err := b.err }
        else if a.shape.length < b.shape.length then .ok { a with err := some .ShapeError }
        else
          match shapeCheck a.shape b.shape with
          | .panic p => .panic p
          | .ok false => .ok a
          | .ok true =>
            if b.data.length = 0 then .panic .divByZero
            else
              match divFanOut b.data (a.data.length / b.data.length) 0 (a.data, a.err) with
              | .panic p => .panic p
              | .ok (d, e) => .ok { a with data := d, err := e }

/-- The method `func (a *Arrayf) Pow(b *Arrayf) *Arrayf`. The case `b.err != nil` copies the
error and has no `return`: control leaves the `switch` and reaches the broadcast
loop. -/
def Arrayf.Pow {F : Type} [Float64 F] (a b : Option (Arrayf F)) : Res (Arrayf F) :=
  match a with
  | none => .ok { Arrayf.new F with err := some .NilError }
  | some a =>
    if a.err ≠ none then .ok a
    else
      match b with
      | none => .ok { a with err := some .NilError }
      | some b =>
        if b.err ≠ none then checkedBroadcast Float64.pow { a with err := b.err } b
        else if a.shape.length < b.shape.length then .ok { a with err := some .ShapeError }
        else checkedBroadcast Float64.pow a b

/-- The method `func (a *Arrayf) AddC(b float64) *Arrayf`. -/
def Arrayf.AddC {F : Type} [Float64 F] (a : Option (Arrayf F)) (c : F) : Res (Arrayf F) :=
  match a with
  | none => .ok { Arrayf.new F with err := some .NilError }
  | some a =>
    if a.err ≠ none then .ok a
    else .ok { a with data := a.data.map (fun x => Float64.add x c) }

/-- The method `func (a *Arrayf) SubtrC(b float64) *Arrayf`. -/
def Arrayf.SubtrC {F : Type} [Float64 F] (a : Option (Arrayf F)) (c : F) : Res (Arrayf F) :=
  match a with
  | none => .ok { Arrayf.new F with err := some .NilError }
  | some a =>
    if a.err ≠ none then .ok a
    else .ok { a with data := a.data.map (fun x => Float64.sub x c) }

/-- The method `func (a *Arrayf) MultC(b float64) *Arrayf`. -/
def Arrayf.MultC {F : Type} [Float64 F] (a : Option (Arrayf F)) (c : F) : Res (Arrayf F) :=
  match a with
  | none => .ok { Arrayf.new F with err := some .NilError }
  | some a =>
    if a.err ≠ none then .ok a
    else .ok { a with data := a.data.map (fun x => Float64.mul x c) }

/-- The method `func (a *Arrayf) DivC(b float64) *Arrayf`. -/
def Arrayf.DivC {F : Type} [Float64 F] (a : Option (Arrayf F)) (c : F) : Res (Arrayf F) :=
  match a with
  | none => .ok { Arrayf.new F with err := some .NilError }
  | some a =>
    if a.err ≠ none then .ok a
    else
      let a1 : Arrayf F := if Float64.isZero c then { a with err := some .DivZeroError } else a
      .ok { a1 with
        data := a1.data.map (fun x => if Float64.isZero c then Float64.nan else Float64.div x c) }

/-- The method `func (a *Arrayf) PowC(b float64) *Arrayf`. -/
def Arrayf.PowC {F : Type} [Float64 F] (a : Option (Arrayf F)) (c : F) : Res (Arrayf F) :=
  match a with
  | none => .ok { Arrayf.new F with err := some .NilError }
  | some a =>
    if a.err ≠ none then .ok a
    else .ok { a with data := a.data.map (fun x => Float64.pow x c) }

/-- The constructor `Full(val, shape...)`: `Create`, nil when that is nil, otherwise
`a.AddC(val)` on the created array, which is returned. -/
def Full {F : Type} [Float64 F] (val : F) (shape : List Int) : Res (Option (Arrayf F)) :=
  match (Create shape : Option (Arrayf F)) with
  | none => .ok none
  | some a =>
    match Arrayf.AddC (some a) val with
    | .ok r => .ok (some r)
    | .panic p => .panic p

/-! ## Dispatch over the operations -/

/-- The five binary operations. -/
inductive BinOp where
  | Add
  | Subtr
  | Mult
  | Div
  | Pow
  deriving DecidableEq, Repr

/-- The five scalar operations. -/
inductive ScalarOp where
  | AddC
  | SubtrC
  | MultC
  | DivC
  | PowC
  deriving DecidableEq, Repr

/-- The method a binary operation names. -/
def BinOp.run {F : Type} [Float64 F] : BinOp → Option (Arrayf F) → Option (Arrayf F) → Res (Arrayf F)
  | .Add => Arrayf.Add
  | .Subtr => Arrayf.Subtr
  | .Mult => Arrayf.Mult
  | .Div => Arrayf.Div
  | .Pow => Arrayf.Pow

/-- The method a scalar operation names. -/
def ScalarOp.run {F : Type} [Float64 F] : ScalarOp → Option (Arrayf F) → F → Res (Arrayf F)
  | .AddC => Arrayf.AddC
  | .SubtrC => Arrayf.SubtrC
  | .MultC => Arrayf.MultC
  | .DivC => Arrayf.DivC
  | .PowC => Arrayf.PowC

/-- The elementwise function of a binary operation (`+=`, `-=`, `*=`, `/=`,
`math.Pow`). -/
def BinOp.fn {F : Type} [Float64 F] : BinOp → F → F → F
  | .Add => Float64.add
  | .Subtr => Float64.sub
  | .Mult => Float64.mul
  | .Div => Float64.div
  | .Pow => Float64.pow

/-! ## A concrete carrier for evaluating the definitions -/

/-- Exact integers and one not-a-number value: a small carrier of the `Float64`
operations on which the definitions evaluate by computation. -/
inductive TinyFloat where
  | int (n : Int)
  | nan
  deriving DecidableEq, Repr

instance : Float64 TinyFloat where
  zero := .int 0
  nan := .nan
  add
    | .int x, .int y => .int (x + y)
    | _, _ => .nan
  sub
    | .int x, .int y => .int (x - y)
    | _, _ => .nan
  mul
    | .int x, .int y => .int (x * y)
    | _, _ => .nan
  div
    | .int x, .int y => if y = 0 then .nan else .int (x / y)
    | _, _ => .nan
  pow
    | .int x, .int y => if y < 0 then .nan else .int (x ^ y.toNat)
    | _, _ => .nan
  isZero
    | .int y => decide (y = 0)
    | .nan => false

/-! ## Reshape, copy and ranges (`numgo.go`) -/

/-- The method `func (a *Arrayf) Reshape(shape ...int) *Arrayf`. The result is the pair
of the receiver after the call and the returned pointer: nil is returned, and the
receiver left as it is, at an extent `≤ 0` or when `sz != uint64(len(a.data))`;
otherwise strides and shape are rewritten and the receiver is returned. -/
def Arrayf.Reshape {F : Type} (a : Option (Arrayf F)) (shape : List Int) :
    Option (Arrayf F) × Option (Arrayf F) :=
  match a with
  | none => (none, none)
  | some a =>
    match sizeLoop shape 1 [] with
    | none => (some a, none)
    | some (sz, sh) =>
      if sz ≠ toU64 (a.data.length : Int) then (some a, none)
      else
        let a1 : Arrayf F := { a with strides := mkStrides sh, shape := sh }
        (some a1, some a1)

/-- The loop `for i, v := range a.data { b.data[i] = v }` of `C`, from index `i` on. -/
def copyLoop {F : Type} : List F → Nat → List F → Res (List F)
  | [], _, bd => .ok bd
  | v :: vs, i, bd =>
    if i < bd.length then copyLoop vs (i + 1) (bd.set i v)
    else .panic .indexOutOfRange

/-- The method `func (a *Arrayf) C() (b *Arrayf)`: nil for a nil receiver, otherwise
`b = create(a.shape...)` filled by the copy loop. When `create` returns nil the first
iteration of the loop dereferences nil; without an iteration nil is returned. -/
def Arrayf.C {F : Type} [Float64 F] (a : Option (Arrayf F)) : Res (Option (Arrayf F)) :=
  match a with
  | none => .ok none
  | some a =>
    match (create a.shape : Option (Arrayf F)) with
    | none =>
      match a.data with
      | [] => .ok none
      | _ :: _ => .panic .nilDeref
    | some b =>
      match copyLoop a.data 0 b.data with
      | .ok d => .ok (some { b with data := d })
      | .panic p => .panic p

/-- The further `float64` operations used by `Arange`: the constants `1` and `-1`,
the comparisons `x <= y` and `x < y` (`x >= y` is `y <= x`, `x > y` is `y < x`) and
the conversion `int(x)`. -/
class Float64Cmp (F : Type) extends Float64 F where
  one : F
  negOne : F
  le : F → F → Bool
  lt : F → F → Bool
  toInt : F → Int

/-- The loop `for i, v := 0, start; i < len(a.data); i, v = i+1, v+step { a.data[i] = v }`
of `Arange`. The first argument counts the iterations still to run, `len(a.data) - i`. -/
def arangeLoop {F : Type} [Float64 F] (step : F) : Nat → Nat → F → List F → List F
  | 0, _, _, d => d
  | n + 1, i, v, d => arangeLoop step n (i + 1) (Float64.add v step) (d.set i v)

/-- The part of `Arange` after the `switch`: `a = Create(int((stop - start) / step))`
and the fill loop, whose condition `i < len(a.data)` dereferences `a`. -/
def arangeRun {F : Type} [Float64Cmp F] (start stop step : F) : Res (Option (Arrayf F)) :=
  match (Create [Float64Cmp.toInt (Float64.div (Float64.sub stop start) step)] :
      Option (Arrayf F)) with
  | none => .panic .nilDeref
  | some a => .ok (some { a with data := arangeLoop step a.data.length 0 start a.data })

/-- The function `Arange(vals ...float64)`. -/
def Arange {F : Type} [Float64Cmp F] (vals : List F) : Res (Option (Arrayf F)) :=
  match vals with
  | [] => .ok none
  | [x] =>
    if Float64Cmp.le x Float64.zero then arangeRun x Float64.zero Float64Cmp.negOne
    else arangeRun Float64.zero x Float64Cmp.one
  | [x, y] =>
    arangeRun x y (if Float64Cmp.lt y x then Float64Cmp.negOne else Float64Cmp.one)
  | x :: y :: z :: _ =>
    if (Float64Cmp.lt y x && Float64Cmp.le Float64.zero z) ||
        (Float64Cmp.lt x y && Float64Cmp.le z Float64.zero) then .ok none
    else arangeRun x y z

instance : Float64Cmp TinyFloat where
  one := .int 1
  negOne := .int (-1)
  le
    | .int x, .int y => decide (x ≤ y)
    | _, _ => false
  lt
    | .int x, .int y => decide (x < y)
    | _, _ => false
  toInt
    | .int x => x
    | .nan => -(2 ^ 63)

/-! ## Workers started in another order -/

/-- The workers of a broadcast operation started for the tile numbers `ks`, one after
the other in the order of the list; worker `k` is
`for i, v := range b.data { a.data[i+k*len(b.data)] = op(a.data[i+k*len(b.data)], v) }`. -/
def tilesIn {F : Type} (op : F → F → F) (bd : List F) : List Nat → List F → Res (List F)
  | [], ad => .ok ad
  | k :: ks, ad =>
    match tileLoop op (k * bd.length) bd 0 ad with
    | .panic p => .panic p
    | .ok ad1 => tilesIn op bd ks ad1

/-- The three conditions of the data model: `len(data) = product(shape)`,
`len(strides) = len(shape)+1` and a non-empty shape. -/
def Arrayf.Inv {F : Type} (a : Arrayf F) : Prop :=
  a.data.length = a.shape.prod ∧ a.strides.length = a.shape.length + 1 ∧ a.shape ≠ []

/-! ## The indices written by the workers -/

/-- The indices `i+m` that the worker `for i, v := range b.data { a.data[i+m] = … }`
writes, in order, from index `i` on. -/
def tileWrites {F : Type} (m : Nat) : List F → Nat → List Nat
  | [], _ => []
  | _ :: vs, i => (i + m) :: tileWrites m vs (i + 1)

/-- The indices written by the workers `k, k+1, …` of
`for k := 0; k < mul; k++ { go worker(k * len(b.data)) }`, worker after worker. The
first argument counts the workers still to start, the second is `k`. -/
def fanOutWrites {F : Type} (bd : List F) : Nat → Nat → List Nat
  | 0, _ => []
  | n + 1, k => tileWrites (k * bd.length) bd 0 ++ fanOutWrites bd n (k + 1)

/-! ## Functions used to state the behaviour of `Div` -/

/-- The elementwise function of the `Div` workers: `NaN` at a zero divisor. -/
def divFn {F : Type} [Float64 F] (x v : F) : F :=
  if Float64.isZero v then Float64.nan else Float64.div x v

/-- The error slot after a `Div` worker has met a zero divisor. -/
def divErr (e : Option NgError) : Option NgError :=
  if e = none then some .DivZeroError else e

/-! ## Example arrays -/

/-- A 3×2 array holding 1, …, 6. -/
def exA : Arrayf TinyFloat :=
  { shape := [3, 2], strides := [6, 2, 1],
    data := [.int 1, .int 2, .int 3, .int 4, .int 5, .int 6], err := none }

/-- A one-axis array holding 10, 20. -/
def exB : Arrayf TinyFloat :=
  { shape := [2], strides := [2, 1], data := [.int 10, .int 20], err := none }

/-- A one-axis array of five elements. -/
def exC : Arrayf TinyFloat :=
  { shape := [5], strides := [5, 1],
    data := [.int 0, .int 0, .int 0, .int 0, .int 0], err := none }

/-- The array `exA` carrying a shape error. -/
def exE : Arrayf TinyFloat := { exA with err := some .ShapeError }

/-- A one-axis operand holding 0, 2. -/
def exZ : Arrayf TinyFloat :=
  { shape := [2], strides := [2, 1], data := [.int 0, .int 2], err := none }

/-! ## The broadcast loops -/

theorem tileLoop_ok {F : Type} (op : F → F → F) (m : Nat) :
    ∀ (vs : List F) (i : Nat) (ad : List F), i + m + vs.length ≤ ad.length →
      ∃ r, tileLoop op m vs i ad = .ok r ∧ r.length = ad.length ∧
        (∀ j, j < i + m ∨ i + m + vs.length ≤ j → r[j]? = ad[j]?) ∧
        (∀ t v, vs[t]? = some v → r[i + m + t]? = (ad[i + m + t]?).map (fun x => op x v)) := by
  intro vs
  induction vs with
  | nil =>
    intro i ad _
    exact ⟨ad, rfl, rfl, fun _ _ => rfl, by simp⟩
  | cons v vs ih =>
    intro i ad h
    simp only [List.length_cons] at h
    have hlt : i + m < ad.length := by omega
    obtain ⟨r, hr, hlen, hout, hin⟩ :=
      ih (i + 1) (ad.set (i + m) (op ad[i + m] v)) (by simp only [List.length_set]; omega)
    refine ⟨r, ?_, ?_, ?_, ?_⟩
    · simp only [tileLoop, List.getElem?_eq_getElem hlt]
      exact hr
    · simpa using hlen
    · intro j hj
      simp only [List.length_cons] at hj
      rw [hout j (by omega), List.getElem?_set_ne (by omega)]
    · intro t w hw
      cases t with
      | zero =>
        simp only [List.getElem?_cons_zero, Option.some.injEq] at hw
        subst hw
        rw [Nat.add_zero, hout (i + m) (by omega), List.getElem?_set_self (by omega),
          List.getElem?_eq_getElem hlt]
        rfl
      | succ t =>
        simp only [List.getElem?_cons_succ] at hw
        have := hin t w hw
        rw [show i + m + (t + 1) = i + 1 + m + t by omega, this,
          List.getElem?_set_ne (by omega)]

theorem fanOut_ok {F : Type} (op : F → F → F) (bd : List F) :
    ∀ (n k : Nat) (ad : List F), (k + n) * bd.length ≤ ad.length →
      ∃ r, fanOut op bd n k ad = .ok r ∧ r.length = ad.length ∧
        (∀ j, j < k * bd.length ∨ (k + n) * bd.length ≤ j → r[j]? = ad[j]?) ∧
        (∀ q t v, q < n → bd[t]? = some v →
          r[(k + q) * bd.length + t]? = (ad[(k + q) * bd.length + t]?).map (fun x => op x v)) := by
  intro n
  induction n with
  | zero =>
    intro k ad _
    exact ⟨ad, rfl, rfl, fun _ _ => rfl, by simp⟩
  | succ n ih =>
    intro k ad h
    have h1 : (k + (n + 1)) * bd.length = k * bd.length + bd.length + n * bd.length := by ring
    have h2 : (k + 1 + n) * bd.length = k * bd.length + bd.length + n * bd.length := by ring
    obtain ⟨r1, hr1, hlen1, hout1, hin1⟩ :=
      tileLoop_ok op (k * bd.length) bd 0 ad (by omega)
    obtain ⟨r, hr, hlen, hout, hin⟩ := ih (k + 1) r1 (by rw [hlen1]; omega)
    refine ⟨r, ?_, by rw [hlen, hlen1], ?_, ?_⟩
    · simp only [fanOut, hr1]
      exact hr
    · intro j hj
      have h3 : (k + 1) * bd.length = k * bd.length + bd.length := by ring
      rw [hout j (by omega), hout1 j (by omega)]
    · intro q t v hq hv
      have ht : t < bd.length := by
        rcases Nat.lt_or_ge t bd.length with h | h
        · exact h
        · rw [List.getElem?_eq_none h] at hv
          cases hv
      cases q with
      | zero =>
        have h3 : (k + 1) * bd.length = k * bd.length + bd.length := by ring
        rw [Nat.add_zero, hout _ (by omega)]
        have := hin1 t v hv
        simpa [Nat.zero_add] using this
      | succ q =>
        have := hin q t v (by omega) hv
        have h3 : (k + 1 + q) * bd.length = (k + (q + 1)) * bd.length := by ring
        rw [h3] at this
        rw [this, hout1 _ (by
          right
          have : (k + (q + 1)) * bd.length = k * bd.length + bd.length + q * bd.length := by ring
          omega)]

theorem broadcast_ok {F : Type} (op : F → F → F) (ad bd : List F) (hb : 0 < bd.length) :
    ∃ r, broadcast op ad bd = .ok r ∧ r.length = ad.length ∧
      (∀ j, ad.length / bd.length * bd.length ≤ j → r[j]? = ad[j]?) ∧
      (∀ j, j < ad.length / bd.length * bd.length →
        ∃ x v, ad[j]? = some x ∧ bd[j % bd.length]? = some v ∧ r[j]? = some (op x v)) := by
  have hle : ad.length / bd.length * bd.length ≤ ad.length := Nat.div_mul_le_self _ _
  obtain ⟨r, hr, hlen, hout, hin⟩ :=
    fanOut_ok op bd (ad.length / bd.length) 0 ad (by simpa using hle)
  refine ⟨r, ?_, hlen, ?_, ?_⟩
  · simp only [broadcast, Nat.ne_of_gt hb, if_false]
    exact hr
  · intro j hj
    exact hout j (Or.inr (by simpa using hj))
  · intro j hj
    have hj1 : j < ad.length := by omega
    have hm : j % bd.length < bd.length := Nat.mod_lt _ hb
    have hq : j / bd.length < ad.length / bd.length := by
      exact (Nat.div_lt_iff_lt_mul hb).2 hj
    refine ⟨ad[j], bd[j % bd.length], List.getElem?_eq_getElem hj1,
      List.getElem?_eq_getElem hm, ?_⟩
    have := hin (j / bd.length) (j % bd.length) bd[j % bd.length] hq
      (List.getElem?_eq_getElem hm)
    have hdm : (0 + j / bd.length) * bd.length + j % bd.length = j := by
      rw [Nat.zero_add, Nat.mul_comm]
      exact Nat.div_add_mod j bd.length
    rw [hdm, List.getElem?_eq_getElem hj1] at this
    simpa using this

/-! ## The broadcast check -/

theorem suffix_iff_aligned (ash bsh : List Nat) :
    bsh <:+ ash ↔ bsh.length ≤ ash.length ∧
      ∀ t, t < bsh.length → ash[ash.length - bsh.length + t]? = bsh[t]? := by
  constructor
  · intro h
    refine ⟨h.length_le, fun t _ => ?_⟩
    have hd := List.suffix_iff_eq_drop.1 h
    conv_rhs => rw [hd]
    rw [List.getElem?_drop]
  · rintro ⟨hl, h⟩
    rw [List.suffix_iff_eq_drop]
    apply List.ext_getElem?
    intro t
    rw [List.getElem?_drop]
    rcases Nat.lt_or_ge t bsh.length with ht | ht
    · exact (h t ht).symm
    · rw [List.getElem?_eq_none ht, List.getElem?_eq_none (by omega)]

theorem shapeLoop_ok (ash bsh : List Nat) (hl : bsh.length ≤ ash.length) :
    ∀ n, n ≤ bsh.length →
      ∃ r, shapeLoop ash bsh n (((ash.length - bsh.length + n : Nat) : Int) - 1) = .ok r ∧
        (r = true ↔ ∀ t, t < n → ash[ash.length - bsh.length + t]? = bsh[t]?) := by
  intro n
  induction n with
  | zero =>
    intro _
    exact ⟨true, rfl, by simp⟩
  | succ n ih =>
    intro hn
    obtain ⟨r, hr, hiff⟩ := ih (by omega)
    have hj : (((ash.length - bsh.length + (n + 1) : Nat) : Int) - 1) =
        ((ash.length - bsh.length + n : Nat) : Int) := by
      push_cast
      ring
    have ha : ash.length - bsh.length + n < ash.length := by omega
    have hb : n < bsh.length := by omega
    rw [hj]
    by_cases hxy : ash[ash.length - bsh.length + n] = bsh[n]
    · refine ⟨r, ?_, ?_⟩
      · simp only [shapeLoop, Int.toNat_ofNat, List.getElem?_eq_getElem ha,
          List.getElem?_eq_getElem hb]
        rw [if_neg (by omega), if_neg (by simpa using hxy)]
        exact hr
      · rw [hiff]
        constructor
        · intro h t ht
          rcases Nat.lt_or_ge t n with h1 | h1
          · exact h t h1
          · have : t = n := by omega
            subst this
            rw [List.getElem?_eq_getElem ha, List.getElem?_eq_getElem hb, hxy]
        · intro h t ht
          exact h t (by omega)
    · refine ⟨false, ?_, ?_⟩
      · simp only [shapeLoop, Int.toNat_ofNat, List.getElem?_eq_getElem ha,
          List.getElem?_eq_getElem hb]
        rw [if_neg (by omega), if_pos (by simpa using hxy)]
      · simp only [Bool.false_eq_true, false_iff]
        intro h
        have := h n (by omega)
        rw [List.getElem?_eq_getElem ha, List.getElem?_eq_getElem hb] at this
        exact hxy (Option.some.inj this)

theorem shapeCheck_ok (ash bsh : List Nat) (hl : bsh.length ≤ ash.length) :
    ∃ r, shapeCheck ash bsh = .ok r ∧ (r = true ↔ bsh <:+ ash) := by
  obtain ⟨r, hr, hiff⟩ := shapeLoop_ok ash bsh hl bsh.length (Nat.le_refl _)
  refine ⟨r, ?_, ?_⟩
  · rw [← hr]
    unfold shapeCheck
    congr 1
    rw [Nat.sub_add_cancel hl]
  · rw [hiff, suffix_iff_aligned]
    exact ⟨fun h => ⟨hl, h⟩, fun h => h.2⟩

theorem checkedBroadcast_mismatch {F : Type} (op : F → F → F) (a b : Arrayf F)
    (hl : ¬ a.shape.length < b.shape.length) (h : ¬ b.shape <:+ a.shape) :
    checkedBroadcast op a b = .ok { a with err := some .ShapeError } := by
  obtain ⟨r, hr, hiff⟩ := shapeCheck_ok a.shape b.shape (by omega)
  cases r with
  | true => exact absurd (hiff.1 rfl) h
  | false => simp only [checkedBroadcast, hr]

theorem checkedBroadcast_match {F : Type} (op : F → F → F) (a b : Arrayf F)
    (h : b.shape <:+ a.shape) :
    checkedBroadcast op a b =
      match broadcast op a.data b.data with
      | .panic p => .panic p
      | .ok d => .ok { a with data := d } := by
  obtain ⟨r, hr, hiff⟩ := shapeCheck_ok a.shape b.shape h.length_le
  cases r with
  | true => simp only [checkedBroadcast, hr]
  | false => exact absurd (hiff.2 h) (by simp)

theorem run_eq_checkedBroadcast {F : Type} [Float64 F] (o : BinOp) (ho : o ≠ .Div)
    (a b : Arrayf F) (ha : a.err = none) (hb : b.err = none)
    (hl : ¬ a.shape.length < b.shape.length) :
    o.run (some a) (some b) = checkedBroadcast o.fn a b := by
  cases o <;>
    first
    | exact absurd rfl ho
    | simp [BinOp.run, BinOp.fn, Arrayf.Add, Arrayf.Subtr, Arrayf.Mult, Arrayf.Pow, ha, hb, hl]

theorem prod_pos_of_pos (l : List Nat) (h : ∀ e ∈ l, 0 < e) : 0 < l.prod := by
  induction l with
  | nil => simp
  | cons x xs ih =>
    rw [List.prod_cons]
    exact Nat.mul_pos (h x (List.mem_cons_self _ _))
      (ih (fun e he => h e (List.mem_cons_of_mem _ he)))

/-! ## The workers of `Div` -/

theorem divErr_idem (e : Option NgError) : divErr (divErr e) = divErr e := by
  cases e <;> simp [divErr]

theorem divTileLoop_eq {F : Type} [Float64 F] (m : Nat) :
    ∀ (vs : List F) (i : Nat) (ad : List F) (e : Option NgError),
      divTileLoop m vs i (ad, e) =
        match tileLoop divFn m vs i ad with
        | .ok r => .ok (r, if vs.any Float64.isZero then divErr e else e)
        | .panic p => .panic p := by
  intro vs
  induction vs with
  | nil =>
    intro i ad e
    simp [divTileLoop, tileLoop]
  | cons v vs ih =>
    intro i ad e
    cases hx : ad[i + m]? with
    | none => simp [divTileLoop, tileLoop, hx]
    | some x =>
      by_cases hz : Float64.isZero v = true
      · simp only [divTileLoop, tileLoop, hx, hz, if_true, List.any_cons, Bool.true_or]
        have := ih (i + 1) (ad.set (i + m) Float64.nan) (divErr e)
        simp only [divErr] at this
        rw [this]
        have hf : divFn x v = (Float64.nan : F) := by simp [divFn, hz]
        rw [hf]
        cases tileLoop divFn m vs (i + 1) (ad.set (i + m) Float64.nan) with
        | panic p => rfl
        | ok r =>
          cases e <;> simp [divErr]
      · have hz1 : Float64.isZero v = false := by simpa using hz
        have hf : divFn x v = Float64.div x v := by simp [divFn, hz1]
        simp only [divTileLoop, tileLoop, hx, hz1, List.any_cons, Bool.false_or, hf,
          Bool.false_eq_true, if_false]
        exact ih _ _ _

theorem divFanOut_eq {F : Type} [Float64 F] (bd : List F) :
    ∀ (n k : Nat) (ad : List F) (e : Option NgError),
      divFanOut bd n k (ad, e) =
        match fanOut divFn bd n k ad with
        | .ok r => .ok (r, if 0 < n ∧ bd.any Float64.isZero = true then divErr e else e)
        | .panic p => .panic p := by
  intro n
  induction n with
  | zero =>
    intro k ad e
    simp [divFanOut, fanOut]
  | succ n ih =>
    intro k ad e
    simp only [divFanOut, fanOut, divTileLoop_eq]
    cases tileLoop divFn (k * bd.length) bd 0 ad with
    | panic p => rfl
    | ok r1 =>
      simp only [ih]
      cases fanOut divFn bd n (k + 1) r1 with
      | panic p => rfl
      | ok r =>
        by_cases hz : bd.any Float64.isZero = true
        · by_cases hn : 0 < n
          · simp [hz, hn, divErr_idem]
          · simp [hz, hn]
        · simp [hz]

/-! ## The loops of `Create` -/

theorem sizeLoop_none_iff : ∀ (shape : List Int) (sz : Nat) (sh : List Nat),
    sizeLoop shape sz sh = none ↔ ∃ v ∈ shape, v ≤ 0 := by
  intro shape
  induction shape with
  | nil => intro sz sh; simp [sizeLoop]
  | cons v vs ih =>
    intro sz sh
    by_cases hv : v ≤ 0
    · simp [sizeLoop, hv]
    · simp [sizeLoop, hv, ih]

theorem sizeLoop_pos : ∀ (shape : List Int) (sz : Nat) (sh : List Nat),
    sz < 2 ^ 64 → (∀ v ∈ shape, 0 < v) →
      sizeLoop shape sz sh =
        some (sz * (shape.map toU64).prod % 2 ^ 64, sh ++ shape.map toU64) := by
  intro shape
  induction shape with
  | nil =>
    intro sz sh hsz _
    have hm : sz % 2 ^ 64 = sz := Nat.mod_eq_of_lt hsz
    simp only [sizeLoop, List.map_nil, List.prod_nil, Nat.mul_one, List.append_nil, hm]
  | cons v vs ih =>
    intro sz sh _ hpos
    have hv : ¬ v ≤ 0 := by
      have := hpos v (List.mem_cons_self _ _)
      omega
    have hw : wrap64 (sz * toU64 v) < 2 ^ 64 := Nat.mod_lt _ (by norm_num)
    simp only [sizeLoop, if_neg hv]
    rw [ih _ _ hw (fun w hw => hpos w (List.mem_cons_of_mem _ hw))]
    simp only [wrap64, List.map_cons, List.prod_cons, List.append_assoc, List.singleton_append,
      Nat.mod_mul_mod, Nat.mul_assoc]

theorem sizeLoopU_none_iff : ∀ (shape : List Nat) (sz : Nat) (sh : List Nat),
    sizeLoopU shape sz sh = none ↔ ∃ v ∈ shape, v = 0 := by
  intro shape
  induction shape with
  | nil => intro sz sh; simp [sizeLoopU]
  | cons v vs ih =>
    intro sz sh
    by_cases hv : v = 0
    · simp [sizeLoopU, hv]
    · have hv1 : ¬ v ≤ 0 := by omega
      have hv2 : ¬ 0 = v := fun h => hv h.symm
      simp [sizeLoopU, hv1, hv2, ih]

theorem sizeLoopU_pos : ∀ (shape : List Nat) (sz : Nat) (sh : List Nat),
    sz < 2 ^ 64 → (∀ v ∈ shape, 0 < v) →
      sizeLoopU shape sz sh = some (sz * shape.prod % 2 ^ 64, sh ++ shape) := by
  intro shape
  induction shape with
  | nil =>
    intro sz sh hsz _
    have hm : sz % 2 ^ 64 = sz := Nat.mod_eq_of_lt hsz
    simp only [sizeLoopU, List.prod_nil, Nat.mul_one, List.append_nil, hm]
  | cons v vs ih =>
    intro sz sh _ hpos
    have hv : ¬ v ≤ 0 := by
      have := hpos v (List.mem_cons_self _ _)
      omega
    have hw : wrap64 (sz * v) < 2 ^ 64 := Nat.mod_lt _ (by norm_num)
    simp only [sizeLoopU, if_neg hv]
    rw [ih _ _ hw (fun w hw => hpos w (List.mem_cons_of_mem _ hw))]
    simp only [wrap64, List.prod_cons, List.append_assoc, List.singleton_append,
      Nat.mod_mul_mod, Nat.mul_assoc]

theorem stridesLoop_ok (sh : List Nat) : ∀ (i tmp : Nat) (st : List Nat),
    i ≤ sh.length → st.length = sh.length + 1 → tmp = (sh.drop i).prod % 2 ^ 64 →
      (stridesLoop sh i tmp st).length = sh.length + 1 ∧
      (∀ j, j ≤ i → (stridesLoop sh i tmp st)[j]? = some ((sh.drop j).prod % 2 ^ 64)) ∧
      (∀ j, i < j → (stridesLoop sh i tmp st)[j]? = st[j]?) := by
  intro i
  induction i with
  | zero =>
    intro tmp st _ hst htmp
    refine ⟨by simp [stridesLoop, hst], ?_, ?_⟩
    · intro j hj
      have : j = 0 := by omega
      subst this
      simp only [stridesLoop]
      rw [List.getElem?_set_self (by omega), htmp]
    · intro j hj
      simp only [stridesLoop]
      rw [List.getElem?_set_ne (by omega)]
  | succ i ih =>
    intro tmp st hi hst htmp
    have hlt : i < sh.length := by omega
    have hd : sh.drop i = sh[i] :: sh.drop (i + 1) := List.drop_eq_getElem_cons hlt
    have hg : sh.getD i 0 = sh[i] := by
      simp [List.getD, List.getElem?_eq_getElem hlt]
    have htmp1 : wrap64 (tmp * sh.getD i 0) = (sh.drop i).prod % 2 ^ 64 := by
      rw [hg, hd, List.prod_cons, htmp, wrap64, Nat.mod_mul_mod, Nat.mul_comm]
    obtain ⟨h1, h2, h3⟩ := ih (wrap64 (tmp * sh.getD i 0)) (st.set (i + 1) tmp)
      (by omega) (by simp [hst]) htmp1
    simp only [stridesLoop]
    refine ⟨h1, ?_, ?_⟩
    · intro j hj
      rcases Nat.lt_or_ge i j with hij | hij
      · have : j = i + 1 := by omega
        subst this
        rw [h3 _ hij, List.getElem?_set_self (by omega), htmp]
      · exact h2 j hij
    · intro j hj
      rw [h3 j (by omega), List.getElem?_set_ne (by omega)]

theorem mkStrides_ok (sh : List Nat) :
    (mkStrides sh).length = sh.length + 1 ∧
    ∀ j, j ≤ sh.length → (mkStrides sh)[j]? = some ((sh.drop j).prod % 2 ^ 64) := by
  obtain ⟨h1, h2, _⟩ := stridesLoop_ok sh sh.length 1 (List.replicate (sh.length + 1) 0)
    (Nat.le_refl _) (by simp) (by simp)
  exact ⟨h1, h2⟩

theorem Create_pos {F : Type} [Float64 F] (shape : List Int) (hpos : ∀ v ∈ shape, 0 < v) :
    (Create shape : Option (Arrayf F)) =
      some { shape := shape.map toU64, strides := mkStrides (shape.map toU64),
             data := List.replicate ((shape.map toU64).prod % 2 ^ 64) Float64.zero,
             err := none } := by
  simp [Create, sizeLoop_pos shape 1 [] (by norm_num) hpos]

theorem create_pos {F : Type} [Float64 F] (shape : List Nat) (hpos : ∀ v ∈ shape, 0 < v) :
    (create shape : Option (Arrayf F)) =
      some { shape := shape, strides := mkStrides shape,
             data := List.replicate (shape.prod % 2 ^ 64) Float64.zero, err := none } := by
  simp [create, sizeLoopU_pos shape 1 [] (by norm_num) hpos]

theorem le_prod_of_mem_pos : ∀ (l : List Int), (∀ v ∈ l, 0 < v) → ∀ v ∈ l, v ≤ l.prod := by
  intro l
  induction l with
  | nil => intro _ v hv; simp at hv
  | cons x xs ih =>
    intro hpos v hv
    have hx : 0 < x := hpos x (List.mem_cons_self _ _)
    have hxs : ∀ w ∈ xs, 0 < w := fun w hw => hpos w (List.mem_cons_of_mem _ hw)
    have hp : 0 < xs.prod := List.prod_pos hxs
    rw [List.prod_cons]
    rcases List.mem_cons.1 hv with rfl | hv
    · nlinarith
    · have := ih hxs v hv
      nlinarith

theorem toU64_of_lt (v : Int) (h0 : 0 < v) (h1 : v < 2 ^ 64) : toU64 v = v.toNat := by
  unfold toU64
  rw [Int.emod_eq_of_lt (by omega) h1]

theorem prod_map_toNat : ∀ (l : List Int), (∀ v ∈ l, 0 < v) →
    ((l.map Int.toNat).prod : Int) = l.prod := by
  intro l
  induction l with
  | nil => intro _; simp
  | cons x xs ih =>
    intro hpos
    have hx : 0 < x := hpos x (List.mem_cons_self _ _)
    rw [List.map_cons, List.prod_cons, List.prod_cons, Nat.cast_mul,
      ih (fun w hw => hpos w (List.mem_cons_of_mem _ hw)), Int.toNat_of_nonneg (by omega)]

theorem drop_prod_le : ∀ (l : List Nat) (i : Nat), (∀ v ∈ l, 0 < v) →
    (l.drop i).prod ≤ l.prod := by
  intro l i hpos
  have h := List.take_append_drop i l
  have hp : 0 < (l.take i).prod :=
    prod_pos_of_pos _ (fun e he => hpos e (List.mem_of_mem_take he))
  calc (l.drop i).prod = 1 * (l.drop i).prod := (Nat.one_mul _).symm
    _ ≤ (l.take i).prod * (l.drop i).prod := Nat.mul_le_mul_right _ hp
    _ = l.prod := by rw [← List.prod_append, h]

/-! ## The write log -/

theorem tileWrites_eq {F : Type} (m : Nat) : ∀ (vs : List F) (i : Nat),
    tileWrites m vs i = List.range' (i + m) vs.length := by
  intro vs
  induction vs with
  | nil => intro i; rfl
  | cons v vs ih =>
    intro i
    simp only [tileWrites, List.length_cons, List.range'_succ, ih]
    congr 2
    omega

theorem fanOutWrites_eq {F : Type} (bd : List F) : ∀ (n k : Nat),
    fanOutWrites bd n k = List.range' (k * bd.length) (n * bd.length) := by
  intro n
  induction n with
  | zero => intro k; simp [fanOutWrites]
  | succ n ih =>
    intro k
    simp only [fanOutWrites, tileWrites_eq, ih, Nat.zero_add]
    rw [show (n + 1) * bd.length = n * bd.length + bd.length by ring,
      show (k + 1) * bd.length = k * bd.length + bd.length by ring]
    exact List.range'_append_1 _ _ _

/-! ## Reshape -/

theorem toU64_natCast (n : Nat) (h : n < 2 ^ 64) : toU64 (n : Int) = n := by
  unfold toU64
  rw [Int.emod_eq_of_lt (by omega) (by exact_mod_cast h)]
  simp

theorem Reshape_pos {F : Type} (a : Arrayf F) (shape : List Int) (hpos : ∀ v ∈ shape, 0 < v) :
    Arrayf.Reshape (some a) shape =
      if (shape.map toU64).prod % 2 ^ 64 ≠ toU64 (a.data.length : Int) then (some a, none)
      else (some { a with strides := mkStrides (shape.map toU64), shape := shape.map toU64 },
            some { a with strides := mkStrides (shape.map toU64), shape := shape.map toU64 }) := by
  simp [Arrayf.Reshape, sizeLoop_pos shape 1 [] (by norm_num) hpos]

theorem Reshape_nonpos {F : Type} (a : Arrayf F) (shape : List Int) (h : ∃ v ∈ shape, v ≤ 0) :
    Arrayf.Reshape (some a) shape = (some a, none) := by
  simp [Arrayf.Reshape, (sizeLoop_none_iff shape 1 []).2 h]

theorem prod_map_toU64_mod (shape : List Int) (hpos : ∀ v ∈ shape, 0 < v)
    (hint : ∀ v ∈ shape, v < 2 ^ 63) :
    (((shape.map toU64).prod % 2 ^ 64 : Nat) : Int) = shape.prod % 2 ^ 64 := by
  have hmap : shape.map toU64 = shape.map Int.toNat :=
    List.map_congr_left (fun v hv =>
      toU64_of_lt v (hpos v hv) (lt_trans (hint v hv) (by norm_num)))
  rw [hmap, Int.natCast_mod, prod_map_toNat shape hpos]
  rfl

/-! ## Arange -/

theorem arangeLoop_ok {F : Type} [Float64 F] (step : F) :
    ∀ (n i : Nat) (v : F) (d : List F), i + n ≤ d.length →
      (arangeLoop step n i v d).length = d.length ∧
      (∀ j, j < i ∨ i + n ≤ j → (arangeLoop step n i v d)[j]? = d[j]?) ∧
      (∀ t, t < n →
        (arangeLoop step n i v d)[i + t]? = some ((fun w => Float64.add w step)^[t] v)) := by
  intro n
  induction n with
  | zero =>
    intro i v d _
    exact ⟨rfl, fun _ _ => rfl, fun t ht => absurd ht (Nat.not_lt_zero t)⟩
  | succ n ih =>
    intro i v d h
    obtain ⟨h1, h2, h3⟩ := ih (i + 1) (Float64.add v step) (d.set i v)
      (by simp only [List.length_set]; omega)
    simp only [arangeLoop]
    refine ⟨by simpa using h1, ?_, ?_⟩
    · intro j hj
      rw [h2 j (by omega), List.getElem?_set_ne (by omega)]
    · intro t ht
      cases t with
      | zero =>
        show (arangeLoop step n (i + 1) (Float64.add v step) (d.set i v))[i]? = some v
        rw [h2 i (by omega), List.getElem?_set_self (by omega)]
      | succ t =>
        have := h3 t (by omega)
        rw [show i + (t + 1) = i + 1 + t by omega, this, Function.iterate_succ_apply]

theorem Create_single {F : Type} [Float64 F] (c : Int) (h1 : 1 ≤ c) (h2 : c < 2 ^ 63) :
    (Create [c] : Option (Arrayf F)) =
      some { shape := [c.toNat], strides := [c.toNat, 1],
             data := List.replicate c.toNat Float64.zero, err := none } := by
  have hu : toU64 c = c.toNat := toU64_of_lt c (by omega) (lt_trans h2 (by norm_num))
  have hlt : c.toNat < 2 ^ 64 := by omega
  have hm : c.toNat % 2 ^ 64 = c.toNat := Nat.mod_eq_of_lt hlt
  have hv : ¬ c ≤ 0 := by omega
  simp only [Create, sizeLoop, if_neg hv, hu, wrap64, Nat.one_mul, hm, List.nil_append,
    mkStrides, stridesLoop, List.length_cons, List.length_nil, List.replicate, List.set,
    List.getD_cons_zero, Nat.zero_add]

theorem Create_nonpos {F : Type} [Float64 F] (c : Int) (h : c ≤ 0) :
    (Create [c] : Option (Arrayf F)) = none := by
  simp [Create, sizeLoop, h]

theorem arangeRun_ok {F : Type} [Float64Cmp F] (start stop step : F) (c : Int)
    (hc : Float64Cmp.toInt (Float64.div (Float64.sub stop start) step) = c)
    (h1 : 1 ≤ c) (h2 : c < 2 ^ 63) :
    ∃ a, arangeRun start stop step = .ok (some a) ∧
      a.shape = [c.toNat] ∧ a.strides = [c.toNat, 1] ∧ a.data.length = c.toNat ∧
      a.err = none ∧
      ∀ i, i < c.toNat → a.data[i]? = some ((fun w => Float64.add w step)^[i] start) := by
  obtain ⟨hl, _, hin⟩ := arangeLoop_ok step c.toNat 0 start
    (List.replicate c.toNat (Float64.zero : F)) (by simp)
  refine ⟨{ shape := [c.toNat], strides := [c.toNat, 1],
            data := arangeLoop step c.toNat 0 start (List.replicate c.toNat Float64.zero),
            err := none }, ?_, rfl, rfl, ?_, rfl, ?_⟩
  · simp only [arangeRun, hc, Create_single c h1 h2, List.length_replicate]
  · simpa using hl
  · intro i hi
    have := hin i hi
    rwa [Nat.zero_add] at this

theorem arangeRun_panic {F : Type} [Float64Cmp F] (start stop step : F)
    (hc : Float64Cmp.toInt (Float64.div (Float64.sub stop start) step) ≤ 0) :
    arangeRun start stop step = .panic .nilDeref := by
  simp only [arangeRun, Create_nonpos _ hc]

/-! ## Copy -/

theorem copyLoop_ok {F : Type} : ∀ (vs : List F) (i : Nat) (bd : List F),
    i + vs.length ≤ bd.length →
      ∃ r, copyLoop vs i bd = .ok r ∧ r.length = bd.length ∧
        (∀ j, j < i ∨ i + vs.length ≤ j → r[j]? = bd[j]?) ∧
        (∀ t, t < vs.length → r[i + t]? = vs[t]?) := by
  intro vs
  induction vs with
  | nil =>
    intro i bd _
    exact ⟨bd, rfl, rfl, fun _ _ => rfl, fun t ht => absurd ht (Nat.not_lt_zero t)⟩
  | cons v vs ih =>
    intro i bd h
    simp only [List.length_cons] at h
    have hlt : i < bd.length := by omega
    obtain ⟨r, hr, hl, hout, hin⟩ := ih (i + 1) (bd.set i v)
      (by simp only [List.length_set]; omega)
    refine ⟨r, ?_, by simpa using hl, ?_, ?_⟩
    · simp only [copyLoop, if_pos hlt]
      exact hr
    · intro j hj
      simp only [List.length_cons] at hj
      rw [hout j (by omega), List.getElem?_set_ne (by omega)]
    · intro t ht
      cases t with
      | zero =>
        show r[i]? = (v :: vs)[0]?
        rw [hout i (by omega), List.getElem?_set_self hlt, List.getElem?_cons_zero]
      | succ t =>
        simp only [List.length_cons] at ht
        have := hin t (by omega)
        rw [show i + (t + 1) = i + 1 + t by omega, this, List.getElem?_cons_succ]

theorem copyLoop_full {F : Type} (vs bd : List F) (h : vs.length = bd.length) :
    copyLoop vs 0 bd = .ok vs := by
  obtain ⟨r, hr, hl, _, hin⟩ := copyLoop_ok vs 0 bd (by omega)
  rw [hr]
  congr 1
  apply List.ext_getElem?
  intro t
  rcases Nat.lt_or_ge t vs.length with ht | ht
  · have := hin t ht
    rwa [Nat.zero_add] at this
  · rw [List.getElem?_eq_none ht, List.getElem?_eq_none (by omega)]

/-! ## Full and the zero-filled operand -/

theorem map_toU64_natCast (sh : List Nat) (h : ∀ e ∈ sh, e < 2 ^ 64) :
    (sh.map (fun n : Nat => (n : Int))).map toU64 = sh := by
  rw [List.map_map]
  conv_rhs => rw [← List.map_id sh]
  exact List.map_congr_left (fun e he => by
    simp only [Function.comp_apply, id_eq]
    exact toU64_natCast e (h e he))

theorem le_prod_of_mem_nat (l : List Nat) (h : ∀ e ∈ l, 0 < e) : ∀ e ∈ l, e ≤ l.prod :=
  fun _ he => Nat.le_of_dvd (prod_pos_of_pos l h) (List.dvd_prod he)

theorem Full_pos {F : Type} [Float64 F] (val : F) (sh : List Nat)
    (hpos : ∀ e ∈ sh, 0 < e) (hlt : sh.prod < 2 ^ 64) :
    Full val (sh.map (fun n : Nat => (n : Int))) =
      .ok (some { shape := sh, strides := mkStrides sh,
                  data := List.replicate sh.prod (Float64.add Float64.zero val),
                  err := none }) := by
  have hmap := map_toU64_natCast sh
    (fun e he => lt_of_le_of_lt (le_prod_of_mem_nat sh hpos e he) hlt)
  have hp : ∀ v ∈ sh.map (fun n : Nat => (n : Int)), 0 < v := by
    intro v hv
    obtain ⟨e, he, rfl⟩ := List.mem_map.1 hv
    exact_mod_cast hpos e he
  simp only [Full, Create_pos _ hp, hmap, Nat.mod_eq_of_lt hlt, Arrayf.AddC]
  simp

theorem broadcast_replicate {F : Type} (op : F → F → F) (ad : List F) (v : F)
    (h : 0 < ad.length) :
    broadcast op ad (List.replicate ad.length v) = .ok (ad.map (fun x => op x v)) := by
  obtain ⟨r, hr, hl, _, hin⟩ := broadcast_ok op ad (List.replicate ad.length v) (by simpa using h)
  rw [hr]
  congr 1
  apply List.ext_getElem?
  intro j
  rcases Nat.lt_or_ge j ad.length with hj | hj
  · obtain ⟨x, w, hx, hw, hrj⟩ := hin j (by
      simp only [List.length_replicate, Nat.div_self h, Nat.one_mul]
      exact hj)
    have hwv : w = v := by
      have hm := List.getElem?_mem hw
      exact (List.mem_replicate.1 hm).2
    rw [hrj, List.getElem?_map, hx, hwv]
    rfl
  · rw [List.getElem?_eq_none (by omega), List.getElem?_eq_none (by simpa using hj)]

/-! ## Shape, strides and data length across the operations -/

theorem tileLoop_length {F : Type} (op : F → F → F) (m : Nat) :
    ∀ (vs : List F) (i : Nat) (ad r : List F), tileLoop op m vs i ad = .ok r →
      r.length = ad.length := by
  intro vs
  induction vs with
  | nil =>
    intro i ad r h
    simp only [tileLoop, Res.ok.injEq] at h
    rw [h]
  | cons v vs ih =>
    intro i ad r h
    cases hx : ad[i + m]? with
    | none => simp [tileLoop, hx] at h
    | some x =>
      simp only [tileLoop, hx] at h
      rw [ih _ _ _ h, List.length_set]

theorem fanOut_length {F : Type} (op : F → F → F) (bd : List F) :
    ∀ (n k : Nat) (ad r : List F), fanOut op bd n k ad = .ok r → r.length = ad.length := by
  intro n
  induction n with
  | zero =>
    intro k ad r h
    simp only [fanOut, Res.ok.injEq] at h
    rw [h]
  | succ n ih =>
    intro k ad r h
    cases ht : tileLoop op (k * bd.length) bd 0 ad with
    | panic p => simp [fanOut, ht] at h
    | ok r1 =>
      simp only [fanOut, ht] at h
      rw [ih _ _ _ h, tileLoop_length op _ _ _ _ _ ht]

theorem broadcast_length {F : Type} (op : F → F → F) (ad bd r : List F)
    (h : broadcast op ad bd = .ok r) : r.length = ad.length := by
  unfold broadcast at h
  by_cases hb : bd.length = 0
  · simp [hb] at h
  · rw [if_neg hb] at h
    exact fanOut_length op bd _ _ _ _ h

theorem checkedBroadcast_frame {F : Type} (op : F → F → F) (a b r : Arrayf F)
    (h : checkedBroadcast op a b = .ok r) :
    r.shape = a.shape ∧ r.strides = a.strides ∧ r.data.length = a.data.length := by
  unfold checkedBroadcast at h
  cases hs : shapeCheck a.shape b.shape with
  | panic p => simp [hs] at h
  | ok c =>
    cases c with
    | false =>
      simp only [hs, Res.ok.injEq] at h
      rw [← h]
      exact ⟨rfl, rfl, rfl⟩
    | true =>
      cases hb : broadcast op a.data b.data with
      | panic p => simp [hs, hb] at h
      | ok d =>
        simp only [hs, hb, Res.ok.injEq] at h
        rw [← h]
        exact ⟨rfl, rfl, broadcast_length op _ _ _ hb⟩

theorem Div_frame {F : Type} [Float64 F] (a : Arrayf F) (b : Option (Arrayf F)) (r : Arrayf F)
    (h : Arrayf.Div (some a) b = .ok r) :
    r.shape = a.shape ∧ r.strides = a.strides ∧ r.data.length = a.data.length := by
  simp only [Arrayf.Div] at h
  by_cases ha : a.err ≠ none
  · rw [if_pos ha] at h
    cases h
    exact ⟨rfl, rfl, rfl⟩
  · rw [if_neg ha] at h
    cases b with
    | none => simp at h
    | some b =>
      simp only at h
      by_cases hb : b.err ≠ none
      · rw [if_pos hb] at h
        cases h
        exact ⟨rfl, rfl, rfl⟩
      · rw [if_neg hb] at h
        by_cases hl : a.shape.length < b.shape.length
        · rw [if_pos hl] at h
          cases h
          exact ⟨rfl, rfl, rfl⟩
        · rw [if_neg hl] at h
          cases hs : shapeCheck a.shape b.shape with
          | panic p => simp [hs] at h
          | ok c =>
            cases c with
            | false =>
              simp only [hs, Res.ok.injEq] at h
              rw [← h]
              exact ⟨rfl, rfl, rfl⟩
            | true =>
              simp only [hs] at h
              by_cases h0 : b.data.length = 0
              · simp [h0] at h
              · rw [if_neg h0, divFanOut_eq] at h
                cases hf : fanOut divFn b.data (a.data.length / b.data.length) 0 a.data with
                | panic p => simp [hf] at h
                | ok d =>
                  simp only [hf, Res.ok.injEq] at h
                  rw [← h]
                  exact ⟨rfl, rfl, fanOut_length _ _ _ _ _ _ hf⟩

theorem binop_frame {F : Type} [Float64 F] (o : BinOp) (a : Arrayf F)
    (b : Option (Arrayf F)) (r : Arrayf F) (h : o.run (some a) b = .ok r) :
    r.shape = a.shape ∧ r.strides = a.strides ∧ r.data.length = a.data.length := by
  by_cases hd : o = .Div
  · subst hd
    exact Div_frame a b r h
  · by_cases ha : a.err ≠ none
    · have : o.run (some a) b = .ok a := by
        cases o <;> simp [BinOp.run, Arrayf.Add, Arrayf.Subtr, Arrayf.Mult, Arrayf.Div,
          Arrayf.Pow, ha]
      rw [this] at h
      cases h
      exact ⟨rfl, rfl, rfl⟩
    · have ha1 : a.err = none := by simpa using ha
      cases b with
      | none =>
        cases o with
        | Add => simp [BinOp.run, Arrayf.Add, ha1] at h
        | Subtr => simp [BinOp.run, Arrayf.Subtr, ha1] at h
        | Mult => simp [BinOp.run, Arrayf.Mult, ha1] at h
        | Div => exact absurd rfl hd
        | Pow =>
          simp only [BinOp.run, Arrayf.Pow, ha1, ne_eq, not_true_eq_false, if_false,
            Res.ok.injEq] at h
          rw [← h]
          exact ⟨rfl, rfl, rfl⟩
      | some b =>
        by_cases hb : b.err ≠ none
        · cases o with
          | Add =>
            simp only [BinOp.run, Arrayf.Add, ha1, ne_eq, not_true_eq_false, if_false,
              if_pos hb, Res.ok.injEq] at h
            rw [← h]
            exact ⟨rfl, rfl, rfl⟩
          | Subtr =>
            simp only [BinOp.run, Arrayf.Subtr, ha1, ne_eq, not_true_eq_false, if_false,
              if_pos hb, Res.ok.injEq] at h
            rw [← h]
            exact ⟨rfl, rfl, rfl⟩
          | Mult =>
            simp only [BinOp.run, Arrayf.Mult, ha1, ne_eq, not_true_eq_false, if_false,
              if_pos hb, Res.ok.injEq] at h
            rw [← h]
            exact ⟨rfl, rfl, rfl⟩
          | Div => exact absurd rfl hd
          | Pow =>
            simp only [BinOp.run, Arrayf.Pow, ha1, ne_eq, not_true_eq_false, if_false,
              if_pos hb] at h
            exact checkedBroadcast_frame _ ⟨a.shape, a.strides, a.data, b.err⟩ _ _ h
        · have hb1 : b.err = none := by simpa using hb
          by_cases hl : a.shape.length < b.shape.length
          · cases o with
            | Add =>
              simp only [BinOp.run, Arrayf.Add, ha1, hb1, ne_eq, not_true_eq_false, if_false,
                if_pos hl, Res.ok.injEq] at h
              rw [← h]
              exact ⟨rfl, rfl, rfl⟩
            | Subtr =>
              simp only [BinOp.run, Arrayf.Subtr, ha1, hb1, ne_eq, not_true_eq_false, if_false,
                if_pos hl, Res.ok.injEq] at h
              rw [← h]
              exact ⟨rfl, rfl, rfl⟩
            | Mult =>
              simp only [BinOp.run, Arrayf.Mult, ha1, hb1, ne_eq, not_true_eq_false, if_false,
                if_pos hl, Res.ok.injEq] at h
              rw [← h]
              exact ⟨rfl, rfl, rfl⟩
            | Div => exact absurd rfl hd
            | Pow =>
              simp only [BinOp.run, Arrayf.Pow, ha1, hb1, ne_eq, not_true_eq_false, if_false,
                if_pos hl, Res.ok.injEq] at h
              rw [← h]
              exact ⟨rfl, rfl, rfl⟩
          · rw [run_eq_checkedBroadcast o hd a b ha1 hb1 hl] at h
            exact checkedBroadcast_frame _ _ _ _ h

theorem scalarop_frame {F : Type} [Float64 F] (o : ScalarOp) (a : Arrayf F) (c : F) :
    ∃ r, o.run (some a) c = .ok r ∧
      r.shape = a.shape ∧ r.strides = a.strides ∧ r.data.length = a.data.length := by
  by_cases ha : a.err ≠ none
  · exact ⟨a, by
      cases o <;> simp [ScalarOp.run, Arrayf.AddC, Arrayf.SubtrC, Arrayf.MultC, Arrayf.DivC,
        Arrayf.PowC, ha], rfl, rfl, rfl⟩
  · have ha1 : a.err = none := by simpa using ha
    cases o with
    | AddC =>
      exact ⟨⟨a.shape, a.strides, a.data.map (fun x => Float64.add x c), a.err⟩,
        by simp [ScalarOp.run, Arrayf.AddC, ha1], rfl, rfl, by simp⟩
    | SubtrC =>
      exact ⟨⟨a.shape, a.strides, a.data.map (fun x => Float64.sub x c), a.err⟩,
        by simp [ScalarOp.run, Arrayf.SubtrC, ha1], rfl, rfl, by simp⟩
    | MultC =>
      exact ⟨⟨a.shape, a.strides, a.data.map (fun x => Float64.mul x c), a.err⟩,
        by simp [ScalarOp.run, Arrayf.MultC, ha1], rfl, rfl, by simp⟩
    | DivC =>
      by_cases hz : Float64.isZero c = true
      · exact ⟨⟨a.shape, a.strides, a.data.map (fun _ => Float64.nan),
          some .DivZeroError⟩, by simp [ScalarOp.run, Arrayf.DivC, ha1, hz], rfl, rfl, by simp⟩
      · exact ⟨⟨a.shape, a.strides, a.data.map (fun x => Float64.div x c), a.err⟩,
          by simp [ScalarOp.run, Arrayf.DivC, ha1, hz], rfl, rfl, by simp⟩
    | PowC =>
      exact ⟨⟨a.shape, a.strides, a.data.map (fun x => Float64.pow x c), a.err⟩,
        by simp [ScalarOp.run, Arrayf.PowC, ha1], rfl, rfl, by simp⟩

theorem binop_returns {F : Type} [Float64 F] (o : BinOp) (a b : Arrayf F)
    (hb : b.err = none) (hL : 0 < b.data.length) :
    ∃ r, o.run (some a) (some b) = .ok r := by
  by_cases ha : a.err ≠ none
  · exact ⟨a, by
      cases o <;> simp [BinOp.run, Arrayf.Add, Arrayf.Subtr, Arrayf.Mult, Arrayf.Div,
        Arrayf.Pow, ha]⟩
  · have ha1 : a.err = none := by simpa using ha
    by_cases hl : a.shape.length < b.shape.length
    · exact ⟨⟨a.shape, a.strides, a.data, some .ShapeError⟩, by
        cases o <;> simp [BinOp.run, Arrayf.Add, Arrayf.Subtr, Arrayf.Mult, Arrayf.Div,
          Arrayf.Pow, ha1, hb, hl]⟩
    · obtain ⟨c, hc, _⟩ := shapeCheck_ok a.shape b.shape (by omega)
      by_cases hd : o = .Div
      · subst hd
        cases c with
        | false =>
          exact ⟨a, by simp [BinOp.run, Arrayf.Div, ha1, hb, hl, hc]⟩
        | true =>
          obtain ⟨d, hd, _⟩ := broadcast_ok divFn a.data b.data hL
          have hfan : fanOut divFn b.data (a.data.length / b.data.length) 0 a.data = .ok d := by
            simpa [broadcast, Nat.ne_of_gt hL] using hd
          simp only [BinOp.run, Arrayf.Div, ha1, hb, ne_eq, not_true_eq_false, if_false,
            if_neg hl, hc, if_neg (Nat.ne_of_gt hL), divFanOut_eq, hfan]
          exact ⟨_, rfl⟩
      · rw [run_eq_checkedBroadcast o hd a b ha1 hb hl]
        cases c with
        | false =>
          simp only [checkedBroadcast, hc]
          exact ⟨_, rfl⟩
        | true =>
          obtain ⟨d, hd, _⟩ := broadcast_ok o.fn a.data b.data hL
          simp only [checkedBroadcast, hc, hd]
          exact ⟨_, rfl⟩

theorem toU64_lt (v : Int) : toU64 v < 2 ^ 64 := by
  unfold toU64
  have h1 : 0 ≤ v % 2 ^ 64 := Int.emod_nonneg _ (by norm_num)
  have h2 : v % 2 ^ 64 < 2 ^ 64 := Int.emod_lt_of_pos _ (by norm_num)
  omega

theorem arangeRun_inv {F : Type} [Float64Cmp F] (start stop step : F) (a : Arrayf F)
    (h : arangeRun start stop step = .ok (some a)) : a.Inv := by
  unfold arangeRun at h
  by_cases hc : Float64Cmp.toInt (Float64.div (Float64.sub stop start) step) ≤ 0
  · rw [Create_nonpos _ hc] at h
    cases h
  · have hu := toU64_lt (Float64Cmp.toInt (Float64.div (Float64.sub stop start) step))
    simp only [Create, sizeLoop, if_neg hc, wrap64, Nat.one_mul, List.nil_append,
      Nat.mod_eq_of_lt hu, List.length_replicate, Res.ok.injEq, Option.some.injEq] at h
    rw [← h]
    refine ⟨?_, (mkStrides_ok _).1, by simp⟩
    have := (arangeLoop_ok step
      (toU64 (Float64Cmp.toInt (Float64.div (Float64.sub stop start) step))) 0 start
      (List.replicate (toU64 (Float64Cmp.toInt (Float64.div (Float64.sub stop start) step)))
        (Float64.zero : F)) (by simp)).1
    simpa using this

theorem Arange_inv {F : Type} [Float64Cmp F] (vals : List F) (a : Arrayf F)
    (h : Arange vals = .ok (some a)) : a.Inv := by
  match vals, h with
  | [], h => simp [Arange] at h
  | [x], h =>
    simp only [Arange] at h
    split at h
    · exact arangeRun_inv _ _ _ a h
    · exact arangeRun_inv _ _ _ a h
  | [x, y], h =>
    simp only [Arange] at h
    exact arangeRun_inv _ _ _ a h
  | x :: y :: z :: rest, h =>
    simp only [Arange] at h
    split at h
    · simp at h
    · exact arangeRun_inv _ _ _ a h

theorem Create_exact {F : Type} [Float64 F] (shape : List Int) (hpos : ∀ v ∈ shape, 0 < v)
    (hprod : shape.prod < 2 ^ 64) :
    (Create shape : Option (Arrayf F)) =
      some { shape := shape.map Int.toNat, strides := mkStrides (shape.map Int.toNat),
             data := List.replicate (shape.map Int.toNat).prod Float64.zero, err := none } := by
  have hmap : shape.map toU64 = shape.map Int.toNat :=
    List.map_congr_left (fun v hv =>
      toU64_of_lt v (hpos v hv) (lt_of_le_of_lt (le_prod_of_mem_pos shape hpos v hv) hprod))
  have hcast := prod_map_toNat shape hpos
  have hlt : (shape.map Int.toNat).prod < 2 ^ 64 := by
    have : ((shape.map Int.toNat).prod : Int) < 2 ^ 64 := by rw [hcast]; exact hprod
    exact_mod_cast this
  rw [Create_pos shape hpos, hmap, Nat.mod_eq_of_lt hlt]

theorem C_pos {F : Type} [Float64 F] (a : Arrayf F) (hpos : ∀ e ∈ a.shape, 0 < e)
    (hlen : a.data.length = a.shape.prod % 2 ^ 64) :
    Arrayf.C (some a) =
      .ok (some { shape := a.shape, strides := mkStrides a.shape, data := a.data,
                  err := none }) := by
  simp only [Arrayf.C, create_pos a.shape hpos]
  rw [copyLoop_full a.data _ (by simp [hlen])]

theorem Reshape_inv {F : Type} (a r : Arrayf F) (shape : List Int)
    (h : (Arrayf.Reshape (some a) shape).2 = some r) (hne : shape ≠ [])
    (hprod : shape.prod < 2 ^ 64) (hlen : a.data.length < 2 ^ 63) : r.Inv := by
  by_cases hneg : ∃ v ∈ shape, v ≤ 0
  · rw [Reshape_nonpos a shape hneg] at h
    cases h
  · have hpos : ∀ v ∈ shape, 0 < v := by
      intro v hv
      by_contra hc
      exact hneg ⟨v, hv, by omega⟩
    have hmap : shape.map toU64 = shape.map Int.toNat :=
      List.map_congr_left (fun v hv =>
        toU64_of_lt v (hpos v hv)
          (lt_of_le_of_lt (le_prod_of_mem_pos shape hpos v hv) hprod))
    have hcast := prod_map_toNat shape hpos
    have hlt : (shape.map Int.toNat).prod < 2 ^ 64 := by
      have : ((shape.map Int.toNat).prod : Int) < 2 ^ 64 := by rw [hcast]; exact hprod
      exact_mod_cast this
    have hl64 : a.data.length < 2 ^ 64 := lt_trans hlen (by norm_num)
    rw [Reshape_pos a shape hpos, hmap, Nat.mod_eq_of_lt hlt, toU64_natCast _ hl64] at h
    by_cases heq : (shape.map Int.toNat).prod ≠ a.data.length
    · rw [if_pos heq] at h
      cases h
    · rw [if_neg heq] at h
      simp only [Option.some.injEq] at h
      rw [← h]
      refine ⟨?_, (mkStrides_ok _).1, ?_⟩
      · show a.data.length = (shape.map Int.toNat).prod
        exact (not_not.1 heq).symm
      · show shape.map Int.toNat ≠ []
        simpa using hne

/-! ## Tiles in any order -/

theorem tile_disjoint (L k k2 j : Nat) (hne : k ≠ k2) (h1 : k * L ≤ j) (h2 : j < (k + 1) * L) :
    ¬ (k2 * L ≤ j ∧ j < (k2 + 1) * L) := by
  rintro ⟨h3, h4⟩
  rcases Nat.lt_or_gt_of_ne hne with h | h
  · have : (k + 1) * L ≤ k2 * L := Nat.mul_le_mul_right L h
    omega
  · have : (k2 + 1) * L ≤ k * L := Nat.mul_le_mul_right L h
    omega

theorem tilesIn_ok {F : Type} (op : F → F → F) (bd : List F) :
    ∀ (ks : List Nat) (ad : List F), ks.Nodup →
      (∀ k ∈ ks, (k + 1) * bd.length ≤ ad.length) →
      ∃ r, tilesIn op bd ks ad = .ok r ∧ r.length = ad.length ∧
        (∀ j, (∀ k ∈ ks, ¬ (k * bd.length ≤ j ∧ j < (k + 1) * bd.length)) →
          r[j]? = ad[j]?) ∧
        (∀ k ∈ ks, ∀ t v, bd[t]? = some v →
          r[k * bd.length + t]? = (ad[k * bd.length + t]?).map (fun x => op x v)) := by
  intro ks
  induction ks with
  | nil =>
    intro ad _ _
    exact ⟨ad, rfl, rfl, fun _ _ => rfl, fun k hk => absurd hk (List.not_mem_nil k)⟩
  | cons k ks ih =>
    intro ad hnd hle
    have hk : (k + 1) * bd.length ≤ ad.length := hle k (List.mem_cons_self _ _)
    have hk1 : (k + 1) * bd.length = k * bd.length + bd.length := by ring
    obtain ⟨r1, hr1, hl1, hout1, hin1⟩ := tileLoop_ok op (k * bd.length) bd 0 ad (by omega)
    obtain ⟨r, hr, hl, hout, hin⟩ := ih r1 (List.nodup_cons.1 hnd).2
      (fun k2 hk2 => by rw [hl1]; exact hle k2 (List.mem_cons_of_mem _ hk2))
    refine ⟨r, ?_, by rw [hl, hl1], ?_, ?_⟩
    · simp only [tilesIn, hr1]
      exact hr
    · intro j hj
      rw [hout j (fun k2 hk2 => hj k2 (List.mem_cons_of_mem _ hk2))]
      have := hj k (List.mem_cons_self _ _)
      exact hout1 j (by omega)
    · intro k2 hk2 t v hv
      have ht : t < bd.length := by
        rcases Nat.lt_or_ge t bd.length with h | h
        · exact h
        · rw [List.getElem?_eq_none h] at hv
          cases hv
      rcases List.mem_cons.1 hk2 with rfl | hmem
      · have hnot : k2 ∉ ks := (List.nodup_cons.1 hnd).1
        rw [hout _ (fun k3 hk3 => tile_disjoint bd.length k2 k3 _
          (fun h => hnot (h ▸ hk3)) (by omega) (by omega))]
        have := hin1 t v hv
        simpa [Nat.zero_add] using this
      · have hne : k2 ≠ k := fun h => (List.nodup_cons.1 hnd).1 (h ▸ hmem)
        have hk2' : (k2 + 1) * bd.length = k2 * bd.length + bd.length := by ring
        rw [hin k2 hmem t v hv, hout1 _ (by
          have := tile_disjoint bd.length k2 k _ hne (Nat.le_add_right _ t) (by omega)
          omega)]

theorem tilesIn_perm {F : Type} (op : F → F → F) (ad bd : List F) (hL : 0 < bd.length)
    (ks : List Nat) (hp : ks.Perm (List.range (ad.length / bd.length))) :
    tilesIn op bd ks ad = broadcast op ad bd := by
  have hmulle : ad.length / bd.length * bd.length ≤ ad.length := Nat.div_mul_le_self _ _
  have hmem : ∀ k, k ∈ ks ↔ k < ad.length / bd.length := fun k => by
    rw [hp.mem_iff, List.mem_range]
  obtain ⟨r, hr, hl, hout, hin⟩ := tilesIn_ok op bd ks ad
    (hp.nodup_iff.2 (List.nodup_range _))
    (fun k hk => le_trans (Nat.mul_le_mul_right _ ((hmem k).1 hk)) hmulle)
  obtain ⟨d, hd, hdl, hdout, hdin⟩ := broadcast_ok op ad bd hL
  rw [hr, hd]
  congr 1
  apply List.ext_getElem?
  intro j
  rcases Nat.lt_or_ge j (ad.length / bd.length * bd.length) with hj | hj
  · obtain ⟨x, v, hx, hv, hdj⟩ := hdin j hj
    have hq : j / bd.length < ad.length / bd.length := (Nat.div_lt_iff_lt_mul hL).2 hj
    have := hin (j / bd.length) ((hmem _).2 hq) (j % bd.length) v hv
    have hdm : j / bd.length * bd.length + j % bd.length = j := by
      rw [Nat.mul_comm]
      exact Nat.div_add_mod j bd.length
    rw [hdm, hx] at this
    rw [this, hdj]
    rfl
  · rw [hdout j hj]
    apply hout
    rintro k hk ⟨h1, h2⟩
    have : (k + 1) * bd.length ≤ ad.length / bd.length * bd.length :=
      Nat.mul_le_mul_right _ ((hmem k).1 hk)
    omega

/-! ## The claims -/

/-- C1: for Add, Subtr, Mult and Pow, an error-free receiver `a` and an error-free
operand `b` with `len(data) = product(shape)`, positive operand extents (the data
model of `§3`, which every constructor enforces) and `b.shape` a trailing suffix of
`a.shape`: `len(a.data)` is a multiple of `len(b.data)`; the call returns (no index
is out of bounds); shape, strides, data length and the empty error slot are kept;
every flat index `j` holds one application `op(old a.data[j], b.data[j mod len(b.data)])`,
equivalently index `k*len(b.data)+i` of tile `k < mul` is combined with `b.data[i]`;
the indices written by the `mul` workers are `0, 1, …, len(a.data)-1`, each once. -/
theorem broadcast_elementwise {F : Type} [Float64 F] (a b : Arrayf F)
    (ha : a.err = none) (hb : b.err = none)
    (hda : a.data.length = a.shape.prod) (hdb : b.data.length = b.shape.prod)
    (hpos : ∀ e ∈ b.shape, 0 < e) (hs : b.shape <:+ a.shape) :
    b.data.length ∣ a.data.length ∧
    fanOutWrites b.data (a.data.length / b.data.length) 0 = List.range a.data.length ∧
    ∀ o ∈ [BinOp.Add, BinOp.Subtr, BinOp.Mult, BinOp.Pow],
      ∃ r, o.run (some a) (some b) = .ok r ∧
        r.shape = a.shape ∧ r.strides = a.strides ∧ r.err = none ∧
        r.data.length = a.data.length ∧
        (∀ j, j < a.data.length →
          ∃ x v, a.data[j]? = some x ∧ b.data[j % b.data.length]? = some v ∧
            r.data[j]? = some (o.fn x v)) ∧
        (∀ k i, k < a.data.length / b.data.length → i < b.data.length →
          ∃ x v, a.data[k * b.data.length + i]? = some x ∧ b.data[i]? = some v ∧
            r.data[k * b.data.length + i]? = some (o.fn x v)) := by
  have hdvd : b.data.length ∣ a.data.length := by
    obtain ⟨t, ht⟩ := hs
    rw [hda, hdb, ← ht, List.prod_append]
    exact Dvd.intro_left _ rfl
  have hL : 0 < b.data.length := by
    rw [hdb]
    exact prod_pos_of_pos _ hpos
  have hmul : a.data.length / b.data.length * b.data.length = a.data.length :=
    Nat.div_mul_cancel hdvd
  refine ⟨hdvd, ?_, ?_⟩
  · rw [fanOutWrites_eq, hmul, Nat.zero_mul, List.range_eq_range']
  intro o ho
  have hne : o ≠ .Div := by
    intro h
    subst h
    simp at ho
  obtain ⟨d, hd, hlen, _, hin⟩ := broadcast_ok o.fn a.data b.data hL
  rw [hmul] at hin
  refine ⟨{ a with data := d }, ?_, rfl, rfl, ha, hlen, hin, ?_⟩
  · rw [run_eq_checkedBroadcast o hne a b ha hb (by have := hs.length_le; omega),
      checkedBroadcast_match _ a b hs, hd]
  · intro k i hk hi
    have hj : k * b.data.length + i < a.data.length := by
      have : (k + 1) * b.data.length ≤ a.data.length / b.data.length * b.data.length :=
        Nat.mul_le_mul_right _ hk
      rw [hmul, Nat.add_mul, Nat.one_mul] at this
      omega
    have := hin _ hj
    rwa [Nat.mul_add_mod_of_lt hi] at this

/-- Instance of `broadcast_elementwise` on a 3×2 receiver and a 2-element operand. -/
theorem broadcast_elementwise_witness :
    exA.err = none ∧ exB.err = none ∧ exA.data.length = exA.shape.prod ∧
    exB.data.length = exB.shape.prod ∧ (∀ e ∈ exB.shape, 0 < e) ∧
    exB.shape <:+ exA.shape ∧
    (exB.data.length ∣ exA.data.length ∧
      fanOutWrites exB.data (exA.data.length / exB.data.length) 0 =
        List.range exA.data.length ∧
      ∀ o ∈ [BinOp.Add, BinOp.Subtr, BinOp.Mult, BinOp.Pow],
        ∃ r, o.run (some exA) (some exB) = .ok r ∧
          r.shape = exA.shape ∧ r.strides = exA.strides ∧ r.err = none ∧
          r.data.length = exA.data.length ∧
          (∀ j, j < exA.data.length →
            ∃ x v, exA.data[j]? = some x ∧ exB.data[j % exB.data.length]? = some v ∧
              r.data[j]? = some (o.fn x v)) ∧
          (∀ k i, k < exA.data.length / exB.data.length → i < exB.data.length →
            ∃ x v, exA.data[k * exB.data.length + i]? = some x ∧ exB.data[i]? = some v ∧
              r.data[k * exB.data.length + i]? = some (o.fn x v))) :=
  ⟨rfl, rfl, by decide, by decide, by decide, by decide,
    broadcast_elementwise exA exB rfl rfl (by decide) (by decide) (by decide) (by decide)⟩

/-- C2: for Add, Subtr and Mult on an error-free receiver `a` and an error-free
operand `b`, the call leaves `a` tagged with `ShapeError` exactly when `b.shape` is
not a trailing suffix of `a.shape`, that is when `b` has more axes or an aligned pair
of extents (counted from the last axis) differs; the tagged result is `a` with only the
error slot changed. `Create(3,4).Add(Create(5))` is the receiver tagged `ShapeError`. -/
theorem shape_error_iff {F : Type} [Float64 F] (a b : Arrayf F)
    (ha : a.err = none) (hb : b.err = none) :
    (∀ o ∈ [BinOp.Add, BinOp.Subtr, BinOp.Mult],
      ((∃ r, o.run (some a) (some b) = .ok r ∧ r.err = some .ShapeError) ↔
        ¬ b.shape <:+ a.shape) ∧
      (¬ b.shape <:+ a.shape →
        o.run (some a) (some b) = .ok { a with err := some .ShapeError })) ∧
    (¬ b.shape <:+ a.shape ↔
      a.shape.length < b.shape.length ∨
        ∃ t, t < b.shape.length ∧
          a.shape[a.shape.length - b.shape.length + t]? ≠ b.shape[t]?) ∧
    (∃ x y : Arrayf F, Create [3, 4] = some x ∧ Create [5] = some y ∧
      Arrayf.Add (some x) (some y) = .ok { x with err := some .ShapeError }) := by
  refine ⟨?_, ?_, ⟨_, _, rfl, rfl, rfl⟩⟩
  · intro o ho
    have hne : o ≠ .Div := by
      intro h
      subst h
      simp at ho
    have hmis : ¬ b.shape <:+ a.shape →
        o.run (some a) (some b) = .ok { a with err := some .ShapeError } := by
      intro hs
      by_cases hl : a.shape.length < b.shape.length
      · have hp : o ≠ .Pow := by
          intro h
          subst h
          simp at ho
        cases o <;>
          first
          | exact absurd rfl hne
          | exact absurd rfl hp
          | simp [BinOp.run, Arrayf.Add, Arrayf.Subtr, Arrayf.Mult, ha, hb, hl]
      · rw [run_eq_checkedBroadcast o hne a b ha hb hl, checkedBroadcast_mismatch _ a b hl hs]
    refine ⟨⟨?_, fun hs => ⟨_, hmis hs, rfl⟩⟩, hmis⟩
    rintro ⟨r, hr, he⟩ hs
    obtain ⟨d, hd, -⟩ | hp : (∃ d, broadcast o.fn a.data b.data = .ok d ∧ True) ∨
        ∃ p, broadcast o.fn a.data b.data = .panic p := by
      cases hbr : broadcast o.fn a.data b.data with
      | ok d => exact Or.inl ⟨d, rfl, trivial⟩
      | panic p => exact Or.inr ⟨p, rfl⟩
    · rw [run_eq_checkedBroadcast o hne a b ha hb (by have := hs.length_le; omega),
        checkedBroadcast_match _ a b hs, hd] at hr
      cases hr
      simp [ha] at he
    · obtain ⟨p, hp⟩ := hp
      rw [run_eq_checkedBroadcast o hne a b ha hb (by have := hs.length_le; omega),
        checkedBroadcast_match _ a b hs, hp] at hr
      cases hr
  · rw [suffix_iff_aligned]
    constructor
    · intro h
      by_cases hl : a.shape.length < b.shape.length
      · exact Or.inl hl
      · right
        by_contra hcon
        push_neg at hcon
        exact h ⟨by omega, hcon⟩
    · rintro (hl | ⟨t, ht, hne⟩) ⟨hle, hall⟩
      · omega
      · exact hne (hall t ht)

/-- Instance of `shape_error_iff` on a 3×2 receiver and a 5-element operand. -/
theorem shape_error_iff_witness :
    exA.err = none ∧ exC.err = none ∧ ¬ exC.shape <:+ exA.shape ∧
    Arrayf.Add (some exA) (some exC) = .ok { exA with err := some .ShapeError } :=
  ⟨rfl, rfl, by decide,
    ((shape_error_iff exA exC rfl rfl).1 BinOp.Add (by decide)).2 (by decide)⟩

/-- C3: when the receiver already carries an error, each of the ten operations
returns the receiver as it is (error, data, shape and strides), whatever the operand:
absent, errored, of any shape, or a zero scalar. -/
theorem errored_receiver_returned {F : Type} [Float64 F] (a : Arrayf F)
    (ha : a.err ≠ none) (b : Option (Arrayf F)) (c : F) :
    (∀ o : BinOp, o.run (some a) b = .ok a) ∧
    (∀ o : ScalarOp, o.run (some a) c = .ok a) := by
  constructor
  · intro o
    cases o <;>
      simp [BinOp.run, Arrayf.Add, Arrayf.Subtr, Arrayf.Mult, Arrayf.Div, Arrayf.Pow, ha]
  · intro o
    cases o <;>
      simp [ScalarOp.run, Arrayf.AddC, Arrayf.SubtrC, Arrayf.MultC, Arrayf.DivC,
        Arrayf.PowC, ha]

/-- Instance of `errored_receiver_returned`: an errored receiver, an absent operand
and the scalar zero. -/
theorem errored_receiver_returned_witness :
    exE.err ≠ none ∧
    (∀ o : BinOp, o.run (some exE) none = .ok exE) ∧
    (∀ o : ScalarOp, o.run (some exE) (TinyFloat.int 0) = .ok exE) :=
  ⟨by decide, errored_receiver_returned exE (by decide) none (TinyFloat.int 0)⟩

/-- C4: on an absent receiver each of the ten operations returns, for every operand,
a new array whose error slot is `NilError` and whose data, shape and strides are
empty. -/
theorem nil_receiver_result {F : Type} [Float64 F] (b : Option (Arrayf F)) (c : F) :
    (∀ o : BinOp, ∃ r, o.run none b = .ok r ∧ r.err = some .NilError ∧ r.data = [] ∧
      r.shape = [] ∧ r.strides = []) ∧
    (∀ o : ScalarOp, ∃ r, o.run none c = .ok r ∧ r.err = some .NilError ∧ r.data = [] ∧
      r.shape = [] ∧ r.strides = []) := by
  constructor
  · intro o
    cases o <;> exact ⟨_, rfl, rfl, rfl, rfl, rfl⟩
  · intro o
    cases o <;> exact ⟨_, rfl, rfl, rfl, rfl, rfl⟩

/-- C5, evaluated: on the error-free receiver `Create(2,2)` and an absent operand,
Add, Subtr, Mult and Div panic with a nil dereference (the case `b == nil` falls
through into `a.err = b.err`), so no array is returned and no later call of a chain
runs; Pow returns the receiver tagged `NilError` with data, shape and strides kept. -/
theorem nil_operand_outcome {F : Type} [Float64 F] :
    ∃ a : Arrayf F, Create [2, 2] = some a ∧ a.err = none ∧
      Arrayf.Add (some a) none = .panic .nilDeref ∧
      Arrayf.Subtr (some a) none = .panic .nilDeref ∧
      Arrayf.Mult (some a) none = .panic .nilDeref ∧
      Arrayf.Div (some a) none = .panic .nilDeref ∧
      Arrayf.Pow (some a) none = .ok { a with err := some .NilError } :=
  ⟨_, rfl, rfl, rfl, rfl, rfl, rfl, rfl⟩

/-- C6, evaluated: with the error-free receiver `Create(2,2)` and the errored, empty
operand returned by `AddC` on a nil receiver, Add, Subtr, Mult and Div return the
receiver tagged with the error of the operand, while Pow copies the error, goes on to
`mul := len(a.data) / len(b.data)` and panics on the division by zero. With the
errored operand `Create(2).Add(Create(3))`, which keeps its two elements, Pow on
`Create(2)` raises every element and returns the receiver with changed data. -/
theorem pow_errored_operand_outcome {F : Type} [Float64 F] (c : F) :
    (∃ a b : Arrayf F, Create [2, 2] = some a ∧ Arrayf.AddC none c = .ok b ∧
      a.err = none ∧ b.err = some .NilError ∧
      Arrayf.Add (some a) (some b) = .ok { a with err := some .NilError } ∧
      Arrayf.Subtr (some a) (some b) = .ok { a with err := some .NilError } ∧
      Arrayf.Mult (some a) (some b) = .ok { a with err := some .NilError } ∧
      Arrayf.Div (some a) (some b) = .ok { a with err := some .NilError } ∧
      Arrayf.Pow (some a) (some b) = .panic .divByZero) ∧
    (∃ a b : Arrayf F, Create [2] = some a ∧ Arrayf.Add (Create [2]) (Create [3]) = .ok b ∧
      a.err = none ∧ b.err = some .ShapeError ∧
      a.data = [Float64.zero, Float64.zero] ∧
      Arrayf.Pow (some a) (some b) =
        .ok { a with err := some .ShapeError,
                     data := [Float64.pow Float64.zero Float64.zero,
                              Float64.pow Float64.zero Float64.zero] }) :=
  by
  refine ⟨⟨_, _, rfl, rfl, rfl, rfl, rfl, rfl, rfl, rfl, rfl⟩, ⟨_, _, rfl, rfl, rfl, rfl, rfl, ?_⟩⟩
  simp [Arrayf.Pow, checkedBroadcast, shapeCheck, shapeLoop, broadcast, fanOut, tileLoop,
    wrap64, toU64]

/-- C7: division by zero. Tensor form, for an error-free receiver `a` and an
error-free operand `b` that are arrays of the data model (`len(data) = product(shape)`,
positive extents) with `b.shape` a trailing suffix of `a.shape`: `a.Div(b)` returns,
every flat index `j` holds `NaN` when `b.data[j mod len(b.data)]` is zero and
`old a.data[j] / b.data[j mod len(b.data)]` otherwise, and the error slot is
`DivZeroError` exactly when some element of `b.data` is zero (empty otherwise).
Scalar form, for every error-free `a`: `a.DivC(c)` with `c == 0` stores `NaN`
everywhere and sets `DivZeroError`; with `c != 0` it divides every element by `c` and
sets no error. `Full(1,2,2).Div(Full(0,2,2))` has all elements `NaN` and the error
`DivZeroError` (given that `0 + 0 == 0` holds for the floats). -/
theorem div_by_zero {F : Type} [Float64 F] (a b : Arrayf F) (ha : a.err = none) :
    (b.err = none → a.data.length = a.shape.prod → b.data.length = b.shape.prod →
      (∀ e ∈ a.shape, 0 < e) → b.shape <:+ a.shape →
      ∃ r, Arrayf.Div (some a) (some b) = .ok r ∧
        r.shape = a.shape ∧ r.strides = a.strides ∧ r.data.length = a.data.length ∧
        (∀ j, j < a.data.length →
          ∃ x v, a.data[j]? = some x ∧ b.data[j % b.data.length]? = some v ∧
            r.data[j]? =
              some (if Float64.isZero v then Float64.nan else Float64.div x v)) ∧
        (r.err = some .DivZeroError ↔ ∃ v ∈ b.data, Float64.isZero v = true) ∧
        (r.err = none ↔ ∀ v ∈ b.data, Float64.isZero v = false)) ∧
    (∀ c : F, Float64.isZero c = true →
      Arrayf.DivC (some a) c =
        .ok { a with data := a.data.map (fun _ => Float64.nan),
                     err := some .DivZeroError }) ∧
    (∀ c : F, Float64.isZero c = false →
      Arrayf.DivC (some a) c =
        .ok { a with data := a.data.map (fun x => Float64.div x c) }) ∧
    (Float64.isZero (Float64.add (Float64.zero : F) Float64.zero) = true →
      ∀ one : F, ∃ x y : Arrayf F,
        Full one [2, 2] = .ok (some x) ∧ Full Float64.zero [2, 2] = .ok (some y) ∧
        Arrayf.Div (some x) (some y) =
          .ok { x with data := List.replicate 4 Float64.nan,
                       err := some .DivZeroError }) := by
  refine ⟨?_, ?_, ?_, ?_⟩
  · intro hb hda hdb hpos hs
    have hdvd : b.data.length ∣ a.data.length := by
      obtain ⟨t, ht⟩ := hs
      rw [hda, hdb, ← ht, List.prod_append]
      exact Dvd.intro_left _ rfl
    have hA : 0 < a.data.length := by
      rw [hda]
      exact prod_pos_of_pos _ hpos
    have hL : 0 < b.data.length := by
      rw [hdb]
      exact prod_pos_of_pos _ (fun e he => hpos e (hs.subset he))
    have hmul : a.data.length / b.data.length * b.data.length = a.data.length :=
      Nat.div_mul_cancel hdvd
    have hq : 0 < a.data.length / b.data.length :=
      Nat.div_pos (Nat.le_of_dvd hA hdvd) hL
    obtain ⟨d, hd, hlen, _, hin⟩ := broadcast_ok divFn a.data b.data hL
    rw [hmul] at hin
    have hfan : fanOut divFn b.data (a.data.length / b.data.length) 0 a.data = .ok d := by
      simpa [broadcast, Nat.ne_of_gt hL] using hd
    obtain ⟨c, hc, hiff⟩ := shapeCheck_ok a.shape b.shape hs.length_le
    have hct : c = true := hiff.2 hs
    subst hct
    have hrun : Arrayf.Div (some a) (some b) =
        .ok { a with data := d,
                     err := if b.data.any Float64.isZero = true then divErr a.err
                            else a.err } := by
      simp [Arrayf.Div, ha, hb, Nat.not_lt.2 hs.length_le, hc, Nat.ne_of_gt hL,
        divFanOut_eq, hfan, hq]
    refine ⟨_, hrun, rfl, rfl, hlen, hin, ?_, ?_⟩
    · by_cases hz : b.data.any Float64.isZero = true
      · simp only [hz, if_true, ha, divErr, true_iff]
        simpa using hz
      · simp only [hz, if_false, ha, false_iff]
        simpa using hz
    · by_cases hz : b.data.any Float64.isZero = true
      · simp only [hz, if_true, ha, divErr, false_iff]
        simpa using hz
      · simp only [hz, if_false, ha, true_iff]
        simpa using hz
  · intro c hc
    simp [Arrayf.DivC, ha, hc]
  · intro c hc
    simp [Arrayf.DivC, ha, hc]
  · intro hz one
    refine ⟨_, _, rfl, rfl, ?_⟩
    simp [Arrayf.Div, shapeCheck, shapeLoop, divFanOut, divTileLoop, hz, wrap64, toU64]

/-- Instance of `div_by_zero`: a 3×2 receiver divided by the operand `[0, 2]`, and
the scalar forms with the divisors 0 and 2. -/
theorem div_by_zero_witness :
    exA.err = none ∧ exZ.err = none ∧ exA.data.length = exA.shape.prod ∧
    exZ.data.length = exZ.shape.prod ∧ (∀ e ∈ exA.shape, 0 < e) ∧
    exZ.shape <:+ exA.shape ∧
    Float64.isZero (TinyFloat.int 0) = true ∧ Float64.isZero (TinyFloat.int 2) = false ∧
    (∃ r, Arrayf.Div (some exA) (some exZ) = .ok r ∧
      r.shape = exA.shape ∧ r.strides = exA.strides ∧ r.data.length = exA.data.length ∧
      (∀ j, j < exA.data.length →
        ∃ x v, exA.data[j]? = some x ∧ exZ.data[j % exZ.data.length]? = some v ∧
          r.data[j]? =
            some (if Float64.isZero v then Float64.nan else Float64.div x v)) ∧
      (r.err = some .DivZeroError ↔ ∃ v ∈ exZ.data, Float64.isZero v = true) ∧
      (r.err = none ↔ ∀ v ∈ exZ.data, Float64.isZero v = false)) ∧
    Arrayf.DivC (some exA) (TinyFloat.int 0) =
      .ok { exA with data := exA.data.map (fun _ => Float64.nan),
                     err := some .DivZeroError } ∧
    Arrayf.DivC (some exA) (TinyFloat.int 2) =
      .ok { exA with data := exA.data.map (fun x => Float64.div x (TinyFloat.int 2)) } ∧
    (∃ x y : Arrayf TinyFloat,
      Full (TinyFloat.int 1) [2, 2] = .ok (some x) ∧ Full Float64.zero [2, 2] = .ok (some y) ∧
      Arrayf.Div (some x) (some y) =
        .ok { x with data := List.replicate 4 Float64.nan,
                     err := some .DivZeroError }) :=
  ⟨rfl, rfl, by decide, by decide, by decide, by decide, rfl, rfl,
    (div_by_zero exA exZ rfl).1 rfl (by decide) (by decide) (by decide) (by decide),
    (div_by_zero exA exZ rfl).2.1 (TinyFloat.int 0) rfl,
    (div_by_zero exA exZ rfl).2.2.1 (TinyFloat.int 2) rfl,
    (div_by_zero exA exZ rfl).2.2.2 rfl (TinyFloat.int 1)⟩

/-- C8, evaluated: for `a = Create(3,4)` and `b = Create(5)`, both error-free and
`b.shape` not a trailing suffix of `a.shape`, `a.Div(b)` returns `a` with an empty
error slot, whereas `a.Pow(b)` and `a.Add(b)` return `a` tagged `ShapeError`. -/
theorem div_mismatch_outcome {F : Type} [Float64 F] :
    ∃ a b : Arrayf F, Create [3, 4] = some a ∧ Create [5] = some b ∧
      a.err = none ∧ b.err = none ∧ ¬ b.shape <:+ a.shape ∧
      Arrayf.Div (some a) (some b) = .ok a ∧
      Arrayf.Pow (some a) (some b) = .ok { a with err := some .ShapeError } ∧
      Arrayf.Add (some a) (some b) = .ok { a with err := some .ShapeError } :=
  by
  refine ⟨_, _, rfl, rfl, rfl, rfl, ?_, rfl, rfl, rfl⟩
  show ¬ ([5] : List Nat) <:+ [3, 4]
  decide

/-- C9: `Create` returns nil exactly when some extent is `≤ 0`; for positive extents
whose product does not overflow 64 bits it returns an array whose shape is the given
extents in order, whose data has exactly `product(shape)` elements, all zero, and
whose error slot is empty. -/
theorem Create_spec {F : Type} [Float64 F] (shape : List Int) :
    ((Create shape : Option (Arrayf F)) = none ↔ ∃ v ∈ shape, v ≤ 0) ∧
    ((∀ v ∈ shape, 0 < v) → shape.prod < 2 ^ 64 →
      ∃ a : Arrayf F, Create shape = some a ∧
        a.shape.map (fun n : Nat => (n : Int)) = shape ∧
        (a.data.length : Int) = shape.prod ∧
        a.data.length = a.shape.prod ∧
        (∀ x ∈ a.data, x = Float64.zero) ∧ a.err = none) := by
  constructor
  · rw [← sizeLoop_none_iff shape 1 []]
    unfold Create
    cases sizeLoop shape 1 [] with
    | none => simp
    | some p => simp
  · intro hpos hprod
    have hmap : shape.map toU64 = shape.map Int.toNat :=
      List.map_congr_left (fun v hv =>
        toU64_of_lt v (hpos v hv) (lt_of_le_of_lt (le_prod_of_mem_pos shape hpos v hv) hprod))
    have hcast := prod_map_toNat shape hpos
    have hlt : (shape.map Int.toNat).prod < 2 ^ 64 := by
      have : ((shape.map Int.toNat).prod : Int) < 2 ^ 64 := by rw [hcast]; exact hprod
      exact_mod_cast this
    refine ⟨_, Create_pos shape hpos, ?_, ?_, ?_, ?_, rfl⟩
    · rw [hmap, List.map_map]
      conv_rhs => rw [← List.map_id shape]
      exact List.map_congr_left (fun v hv => by
        have := hpos v hv
        simp only [Function.comp_apply, id_eq]
        exact Int.toNat_of_nonneg (by omega))
    · simp only [List.length_replicate]
      rw [hmap, Nat.mod_eq_of_lt hlt, hcast]
    · simp only [List.length_replicate]
      rw [hmap, Nat.mod_eq_of_lt hlt]
    · intro x hx
      exact (List.mem_replicate.1 hx).2

/-- Instance of `Create_spec` at `Create(3, 4)`. -/
theorem Create_spec_witness :
    (∀ v ∈ ([3, 4] : List Int), 0 < v) ∧ ([3, 4] : List Int).prod < 2 ^ 64 ∧
    ∃ a : Arrayf TinyFloat, Create [3, 4] = some a ∧
      a.shape.map (fun n : Nat => (n : Int)) = [3, 4] ∧
      (a.data.length : Int) = ([3, 4] : List Int).prod ∧
      a.data.length = a.shape.prod ∧
      (∀ x ∈ a.data, x = Float64.zero) ∧ a.err = none :=
  ⟨by decide, by decide, (Create_spec [3, 4]).2 (by decide) (by decide)⟩

/-- C10 as stated fails when the product of the extents overflows 64 bits:
`Create(1<<32, 1<<32)` has positive extents and the stride table `[0, 1<<32, 1]`,
so `strides[0]` is not `product(shape)` and not `shape[0] * strides[1]`. -/
theorem strides_overflow_counterexample :
    (∀ v ∈ ([2 ^ 32, 2 ^ 32] : List Int), 0 < v) ∧
    ∃ a : Arrayf TinyFloat, Create [2 ^ 32, 2 ^ 32] = some a ∧
      a.shape = [2 ^ 32, 2 ^ 32] ∧ a.strides = [0, 2 ^ 32, 1] ∧
      a.strides[0]? ≠ some (a.shape.drop 0).prod ∧
      a.strides.getD 0 0 ≠ a.shape.getD 0 0 * a.strides.getD 1 0 ∧
      a.strides[0]? = some a.data.length := by
  refine ⟨by decide, _, rfl, by decide, by decide, by decide, by decide, by decide⟩

/-- C10, amended: for positive extents (Go `int`s) the stride table of `Create` has
length `len(shape)+1`, `strides[i]` is `product(shape[i:])` modulo `2^64`,
`strides[0]` equals `len(data)`, the last entry is 1 and
`strides[i] = shape[i] * strides[i+1]` modulo `2^64`; when the product of the extents
does not overflow 64 bits, `strides[i] = product(shape[i:])` and
`strides[i] = shape[i] * strides[i+1]` hold exactly. The internal `create` applied to
the resulting shape builds the same array, hence the same table. -/
theorem strides_table {F : Type} [Float64 F] (shape : List Int)
    (hpos : ∀ v ∈ shape, 0 < v ∧ v < 2 ^ 63) :
    ∃ a : Arrayf F, Create shape = some a ∧
      a.shape = shape.map Int.toNat ∧
      a.strides.length = a.shape.length + 1 ∧
      (∀ i, i ≤ a.shape.length → a.strides[i]? = some ((a.shape.drop i).prod % 2 ^ 64)) ∧
      a.strides[0]? = some a.data.length ∧
      a.strides[a.shape.length]? = some 1 ∧
      (∀ i, i < a.shape.length → ∃ e s, a.shape[i]? = some e ∧ a.strides[i + 1]? = some s ∧
        a.strides[i]? = some (e * s % 2 ^ 64)) ∧
      (shape.prod < 2 ^ 64 →
        (∀ i, i ≤ a.shape.length → a.strides[i]? = some (a.shape.drop i).prod) ∧
        (∀ i, i < a.shape.length → ∃ e s, a.shape[i]? = some e ∧
          a.strides[i + 1]? = some s ∧ a.strides[i]? = some (e * s))) ∧
      create a.shape = some a := by
  have hp : ∀ v ∈ shape, 0 < v := fun v hv => (hpos v hv).1
  have hmap : shape.map toU64 = shape.map Int.toNat :=
    List.map_congr_left (fun v hv =>
      toU64_of_lt v (hpos v hv).1 (lt_trans (hpos v hv).2 (by norm_num)))
  have hnat : ∀ e ∈ shape.map Int.toNat, 0 < e := by
    intro e he
    obtain ⟨v, hv, rfl⟩ := List.mem_map.1 he
    have := hp v hv
    omega
  obtain ⟨hlen, hst⟩ := mkStrides_ok (shape.map Int.toNat)
  have hrec : ∀ i, i < (shape.map Int.toNat).length →
      ∃ e, (shape.map Int.toNat)[i]? = some e ∧
        ((shape.map Int.toNat).drop i).prod =
          e * ((shape.map Int.toNat).drop (i + 1)).prod := by
    intro i hi
    refine ⟨(shape.map Int.toNat)[i], List.getElem?_eq_getElem hi, ?_⟩
    rw [List.drop_eq_getElem_cons hi, List.prod_cons]
  refine ⟨_, Create_pos shape hp, hmap, ?_, ?_, ?_, ?_, ?_, ?_, ?_⟩
  · simp only [hmap]
    exact hlen
  · simp only [hmap]
    exact hst
  · simp only [hmap, List.length_replicate]
    rw [hst 0 (Nat.zero_le _), List.drop_zero]
  · simp only [hmap]
    rw [hst _ (Nat.le_refl _), List.drop_length]
    rfl
  · simp only [hmap]
    intro i hi
    obtain ⟨e, he, hprod⟩ := hrec i hi
    refine ⟨e, _, he, hst (i + 1) (by omega), ?_⟩
    rw [hst i (by omega), hprod, Nat.mul_mod_mod]
  · intro hprod
    have hcast := prod_map_toNat shape hp
    have hlt : (shape.map Int.toNat).prod < 2 ^ 64 := by
      have : ((shape.map Int.toNat).prod : Int) < 2 ^ 64 := by rw [hcast]; exact hprod
      exact_mod_cast this
    have hdrop : ∀ i, ((shape.map Int.toNat).drop i).prod % 2 ^ 64 =
        ((shape.map Int.toNat).drop i).prod := fun i =>
      Nat.mod_eq_of_lt (lt_of_le_of_lt (drop_prod_le _ i hnat) hlt)
    simp only [hmap]
    constructor
    · intro i hi
      rw [hst i hi, hdrop]
    · intro i hi
      obtain ⟨e, he, hprod1⟩ := hrec i hi
      refine ⟨e, _, he, hst (i + 1) (by omega), ?_⟩
      rw [hst i (by omega), hdrop, hdrop, hprod1]
  · simp only [hmap]
    exact create_pos _ hnat

/-- Instance of `strides_table` at `Create(3, 4)`; the product 12 does not overflow. -/
theorem strides_table_witness :
    (∀ v ∈ ([3, 4] : List Int), 0 < v ∧ v < 2 ^ 63) ∧ ([3, 4] : List Int).prod < 2 ^ 64 ∧
    ∃ a : Arrayf TinyFloat, Create [3, 4] = some a ∧
      a.shape = ([3, 4] : List Int).map Int.toNat ∧
      a.strides.length = a.shape.length + 1 ∧
      (∀ i, i ≤ a.shape.length → a.strides[i]? = some ((a.shape.drop i).prod % 2 ^ 64)) ∧
      a.strides[0]? = some a.data.length ∧
      a.strides[a.shape.length]? = some 1 ∧
      (∀ i, i < a.shape.length → ∃ e s, a.shape[i]? = some e ∧ a.strides[i + 1]? = some s ∧
        a.strides[i]? = some (e * s % 2 ^ 64)) ∧
      (([3, 4] : List Int).prod < 2 ^ 64 →
        (∀ i, i ≤ a.shape.length → a.strides[i]? = some (a.shape.drop i).prod) ∧
        (∀ i, i < a.shape.length → ∃ e s, a.shape[i]? = some e ∧
          a.strides[i + 1]? = some s ∧ a.strides[i]? = some (e * s))) ∧
      create a.shape = some a :=
  ⟨by decide, by decide, strides_table [3, 4] (by decide)⟩

/-- C11: for a non-absent array `a` (its slice length a Go `int`) and positive extents
whose product equals `len(a.data)`, `a.Reshape(extents)` returns the receiver with the
data and the error slot untouched (same length, same value at every flat offset), the
shape equal to the new extents, `len(strides) = len(shape)+1` and
`strides[i] = product(shape[i:])` for every `i`. -/
theorem reshape_keeps_data {F : Type} (a : Arrayf F) (shape : List Int)
    (hlen : a.data.length < 2 ^ 63) (hpos : ∀ v ∈ shape, 0 < v)
    (hprod : shape.prod = (a.data.length : Int)) :
    ∃ r, Arrayf.Reshape (some a) shape = (some r, some r) ∧
      r.data = a.data ∧ r.err = a.err ∧
      r.shape.map (fun n : Nat => (n : Int)) = shape ∧
      r.strides.length = r.shape.length + 1 ∧
      ∀ i, i ≤ r.shape.length → r.strides[i]? = some (r.shape.drop i).prod := by
  have hlt : shape.prod < 2 ^ 64 := by
    rw [hprod]
    have : (a.data.length : Int) < 2 ^ 63 := by exact_mod_cast hlen
    omega
  have hmap : shape.map toU64 = shape.map Int.toNat :=
    List.map_congr_left (fun v hv =>
      toU64_of_lt v (hpos v hv) (lt_of_le_of_lt (le_prod_of_mem_pos shape hpos v hv) hlt))
  have hcast := prod_map_toNat shape hpos
  have hnat : (shape.map Int.toNat).prod = a.data.length := by
    have : ((shape.map Int.toNat).prod : Int) = (a.data.length : Int) := by rw [hcast, hprod]
    exact_mod_cast this
  have hpn : ∀ e ∈ shape.map Int.toNat, 0 < e := by
    intro e he
    obtain ⟨v, hv, rfl⟩ := List.mem_map.1 he
    have := hpos v hv
    omega
  have hl64 : a.data.length < 2 ^ 64 := lt_trans hlen (by norm_num)
  obtain ⟨hslen, hst⟩ := mkStrides_ok (shape.map Int.toNat)
  refine ⟨{ a with strides := mkStrides (shape.map Int.toNat), shape := shape.map Int.toNat },
    ?_, rfl, rfl, ?_, hslen, ?_⟩
  · rw [Reshape_pos a shape hpos, hmap, hnat, toU64_natCast _ hl64, Nat.mod_eq_of_lt hl64]
    simp
  · show (shape.map Int.toNat).map (fun n : Nat => (n : Int)) = shape
    rw [List.map_map]
    conv_rhs => rw [← List.map_id shape]
    exact List.map_congr_left (fun v hv => by
      have := hpos v hv
      simp only [Function.comp_apply, id_eq]
      exact Int.toNat_of_nonneg (by omega))
  · intro i hi
    show (mkStrides (shape.map Int.toNat))[i]? = some ((shape.map Int.toNat).drop i).prod
    rw [hst i hi, Nat.mod_eq_of_lt]
    exact lt_of_le_of_lt (drop_prod_le _ i hpn) (by rw [hnat]; exact hl64)

/-- Instance of `reshape_keeps_data`: the 3×2 array reshaped to 2×3. -/
theorem reshape_keeps_data_witness :
    exA.data.length < 2 ^ 63 ∧ (∀ v ∈ ([2, 3] : List Int), 0 < v) ∧
    ([2, 3] : List Int).prod = (exA.data.length : Int) ∧
    ∃ r, Arrayf.Reshape (some exA) [2, 3] = (some r, some r) ∧
      r.data = exA.data ∧ r.err = exA.err ∧
      r.shape.map (fun n : Nat => (n : Int)) = [2, 3] ∧
      r.strides.length = r.shape.length + 1 ∧
      ∀ i, i ≤ r.shape.length → r.strides[i]? = some (r.shape.drop i).prod :=
  ⟨by decide, by decide, by decide,
    reshape_keeps_data exA [2, 3] (by decide) (by decide) (by decide)⟩

/-- C12, evaluated: on the 4-element array `a = Create(4)` the call
`a.Reshape(4, 1<<62 + 1)` has positive extents whose product `2^64 + 4` differs from
`len(a.data) = 4`; the product computed in `uint64` wraps to 4, the test
`sz != uint64(len(a.data))` does not fire, and the receiver is returned (not nil) with
the shape `(4, 1<<62 + 1)` and the strides `(4, 1<<62 + 1, 1)` over its 4 elements.
Without wrap-around the same test works: `a.Reshape(2, 3)` returns nil and leaves the
receiver as it was. -/
theorem reshape_overflow_outcome :
    ∃ a : Arrayf TinyFloat, Create [4] = some a ∧
      (∀ v ∈ ([4, 2 ^ 62 + 1] : List Int), 0 < v ∧ v < 2 ^ 63) ∧
      ([4, 2 ^ 62 + 1] : List Int).prod ≠ (a.data.length : Int) ∧
      (Arrayf.Reshape (some a) [4, 2 ^ 62 + 1]).2 ≠ none ∧
      (Arrayf.Reshape (some a) [4, 2 ^ 62 + 1]).2 =
        some { a with strides := [4, 2 ^ 62 + 1, 1], shape := [4, 2 ^ 62 + 1] } ∧
      (Arrayf.Reshape (some a) [4, 2 ^ 62 + 1]).1 =
        some { a with strides := [4, 2 ^ 62 + 1, 1], shape := [4, 2 ^ 62 + 1] } ∧
      Arrayf.Reshape (some a) [2, 3] = (some a, none) := by
  refine ⟨_, rfl, by decide, by decide, by decide, by decide, by decide, by decide⟩

/-- Behaviour of `Reshape` when the product of the extents does not overflow 64 bits
(receiver non-absent, extents Go `int`s): nil is returned exactly when some extent is
`≤ 0` or the product differs from `len(a.data)`. Whenever nil is returned the receiver
is left exactly as it was, and `Reshape` on an absent receiver returns nil. -/
theorem reshape_nil_iff_no_overflow {F : Type} (a : Arrayf F) (shape : List Int)
    (hlen : a.data.length < 2 ^ 63) (hint : ∀ v ∈ shape, v < 2 ^ 63) :
    (shape.prod < 2 ^ 64 →
      ((Arrayf.Reshape (some a) shape).2 = none ↔
        (∃ v ∈ shape, v ≤ 0) ∨ shape.prod ≠ (a.data.length : Int))) ∧
    ((Arrayf.Reshape (some a) shape).2 = none →
      (Arrayf.Reshape (some a) shape).1 = some a) ∧
    Arrayf.Reshape (none : Option (Arrayf F)) shape = (none, none) := by
  have hl64 : a.data.length < 2 ^ 64 := lt_trans hlen (by norm_num)
  have key : (Arrayf.Reshape (some a) shape).2 = none ↔
      (∃ v ∈ shape, v ≤ 0) ∨ shape.prod % 2 ^ 64 ≠ (a.data.length : Int) := by
    by_cases hneg : ∃ v ∈ shape, v ≤ 0
    · simp [Reshape_nonpos a shape hneg, hneg]
    · have hpos : ∀ v ∈ shape, 0 < v := by
        intro v hv
        by_contra hc
        exact hneg ⟨v, hv, by omega⟩
      have hmod := prod_map_toU64_mod shape hpos hint
      rw [Reshape_pos a shape hpos, toU64_natCast _ hl64]
      by_cases heq : (shape.map toU64).prod % 2 ^ 64 = a.data.length
      · have : shape.prod % 2 ^ 64 = (a.data.length : Int) := by rw [← hmod, heq]
        rw [if_neg (not_not.2 heq)]
        constructor
        · intro h
          cases h
        · rintro (h | h)
          · exact absurd h hneg
          · exact absurd this h
      · have : shape.prod % 2 ^ 64 ≠ (a.data.length : Int) := by
          intro h
          rw [← hmod] at h
          exact heq (by exact_mod_cast h)
        rw [if_pos heq]
        exact ⟨fun _ => Or.inr this, fun _ => rfl⟩
  refine ⟨?_, ?_, rfl⟩
  · intro hlt
    rw [key]
    by_cases hneg : ∃ v ∈ shape, v ≤ 0
    · simp [hneg]
    · have hpos : ∀ v ∈ shape, 0 < v := by
        intro v hv
        by_contra hc
        exact hneg ⟨v, hv, by omega⟩
      have h0 : 0 ≤ shape.prod := le_of_lt (List.prod_pos hpos)
      rw [Int.emod_eq_of_lt h0 hlt]
  · intro h
    by_cases hneg : ∃ v ∈ shape, v ≤ 0
    · rw [Reshape_nonpos a shape hneg]
    · have hpos : ∀ v ∈ shape, 0 < v := by
        intro v hv
        by_contra hc
        exact hneg ⟨v, hv, by omega⟩
      rw [Reshape_pos a shape hpos] at h ⊢
      by_cases heq : (shape.map toU64).prod % 2 ^ 64 ≠ toU64 (a.data.length : Int)
      · rw [if_pos heq]
      · rw [if_neg heq] at h
        cases h

/-- Instance of `reshape_nil_iff_no_overflow`: the 3×2 array and the extents `(2, 2)`. -/
theorem reshape_nil_iff_no_overflow_witness :
    exA.data.length < 2 ^ 63 ∧ (∀ v ∈ ([2, 2] : List Int), v < 2 ^ 63) ∧
    ([2, 2] : List Int).prod < 2 ^ 64 ∧
    ((Arrayf.Reshape (some exA) [2, 2]).2 = none ↔
      (∃ v ∈ ([2, 2] : List Int), v ≤ 0) ∨
        ([2, 2] : List Int).prod ≠ (exA.data.length : Int)) ∧
    (Arrayf.Reshape (some exA) [2, 2]).2 = none ∧
    (Arrayf.Reshape (some exA) [2, 2]).1 = some exA :=
  ⟨by decide, by decide, by decide,
    (reshape_nil_iff_no_overflow exA [2, 2] (by decide) (by decide)).1 (by decide),
    by decide,
    (reshape_nil_iff_no_overflow exA [2, 2] (by decide) (by decide)).2.1 (by decide)⟩

/-- C13: `Arange` with one argument `n` that is not `<= 0` and whose count
`c = int((n - 0) / 1)` is at least 1 returns the one-axis array of shape `(c)` with `c`
elements, `data[i]` being `0` with `1` added `i` times. With two arguments the step is
`-1` if `stop < start` and `1` otherwise, the count is `c = int((stop - start) / step)`,
and for `c ≥ 1` the result has shape `(c)`, `c` elements and `data[i]` is `start` with
`step` added `i` times. The float operations are those of the carrier: the count is
the converted float quotient and the progression is the repeated float sum. -/
theorem arange_progression {F : Type} [Float64Cmp F] :
    (∀ (n : F) (c : Int), Float64Cmp.le n Float64.zero = false →
      Float64Cmp.toInt (Float64.div (Float64.sub n Float64.zero) Float64Cmp.one) = c →
      1 ≤ c → c < 2 ^ 63 →
      ∃ a, Arange [n] = .ok (some a) ∧ a.shape = [c.toNat] ∧ a.data.length = c.toNat ∧
        a.err = none ∧
        ∀ i, i < c.toNat →
          a.data[i]? = some ((fun w => Float64.add w Float64Cmp.one)^[i] Float64.zero)) ∧
    (∀ (start stop : F) (c : Int),
      Float64Cmp.toInt (Float64.div (Float64.sub stop start)
        (if Float64Cmp.lt stop start then Float64Cmp.negOne else Float64Cmp.one)) = c →
      1 ≤ c → c < 2 ^ 63 →
      ∃ a, Arange [start, stop] = .ok (some a) ∧ a.shape = [c.toNat] ∧
        a.data.length = c.toNat ∧ a.err = none ∧
        ∀ i, i < c.toNat →
          a.data[i]? = some ((fun w => Float64.add w
            (if Float64Cmp.lt stop start then Float64Cmp.negOne else Float64Cmp.one))^[i]
              start)) := by
  constructor
  · intro n c hle hc h1 h2
    obtain ⟨a, ha, hs, _, hl, he, hd⟩ := arangeRun_ok Float64.zero n Float64Cmp.one c hc h1 h2
    exact ⟨a, by simp only [Arange, hle, Bool.false_eq_true, if_false, ha], hs, hl, he, hd⟩
  · intro start stop c hc h1 h2
    obtain ⟨a, ha, hs, _, hl, he, hd⟩ := arangeRun_ok start stop _ c hc h1 h2
    exact ⟨a, by simp only [Arange, ha], hs, hl, he, hd⟩

/-- Instance of `arange_progression`: `Arange(5)` and `Arange(7, 3)`. -/
theorem arange_progression_witness :
    (∃ a : Arrayf TinyFloat, Arange [TinyFloat.int 5] = .ok (some a) ∧ a.shape = [5] ∧
      a.data.length = 5 ∧ a.err = none ∧
      ∀ i, i < 5 →
        a.data[i]? = some ((fun w => Float64.add w Float64Cmp.one)^[i] Float64.zero)) ∧
    (∃ a : Arrayf TinyFloat, Arange [TinyFloat.int 7, TinyFloat.int 3] = .ok (some a) ∧
      a.shape = [4] ∧ a.data.length = 4 ∧ a.err = none ∧
      ∀ i, i < 4 →
        a.data[i]? = some ((fun w => Float64.add w Float64Cmp.negOne)^[i]
          (TinyFloat.int 7))) ∧
    Arange [TinyFloat.int 7, TinyFloat.int 3] =
      .ok (some { shape := [4], strides := [4, 1],
                  data := [.int 7, .int 6, .int 5, .int 4], err := none }) :=
  ⟨(arange_progression (F := TinyFloat)).1 (TinyFloat.int 5) 5 rfl rfl (by decide) (by decide),
   (arange_progression (F := TinyFloat)).2 (TinyFloat.int 7) (TinyFloat.int 3) 4 rfl
     (by decide) (by decide),
   by decide⟩

/-- C14, evaluated: for a single argument `v <= 0` the count is
`int((0 - v) / -1)`; whenever this is `≤ 0` (as it is for every float `v <= 0`),
`Create` returns nil and the loop condition `i < len(a.data)` dereferences it:
`Arange(v)` panics and returns no array. -/
theorem arange_nonpos_panics {F : Type} [Float64Cmp F] (v : F)
    (hle : Float64Cmp.le v Float64.zero = true)
    (hc : Float64Cmp.toInt
      (Float64.div (Float64.sub Float64.zero v) Float64Cmp.negOne) ≤ 0) :
    Arange [v] = .panic .nilDeref := by
  simp only [Arange, hle, if_true, arangeRun_panic v Float64.zero Float64Cmp.negOne hc]

/-- Instance of `arange_nonpos_panics`: `Arange(-3)`, whose count is `-3`. -/
theorem arange_nonpos_panics_witness :
    Float64Cmp.le (TinyFloat.int (-3)) Float64.zero = true ∧
    Float64Cmp.toInt (Float64.div (Float64.sub Float64.zero (TinyFloat.int (-3)))
      Float64Cmp.negOne) = -3 ∧
    Arange [TinyFloat.int (-3)] = .panic .nilDeref :=
  ⟨rfl, by decide, arange_nonpos_panics (TinyFloat.int (-3)) rfl (by decide)⟩

/-- C15: with three or more arguments `Arange` returns nil when `stop < start` with
`step >= 0` or `stop > start` with `step <= 0`; otherwise, when the count
`c = int((stop - start) / step)` is at least 1, it returns the one-axis array of shape
`(c)` with `c` elements, `data[i]` being `start` with `step` added `i` times.
Arguments beyond the third are ignored. The float operations are those of the
carrier. -/
theorem arange_three {F : Type} [Float64Cmp F] (x y z : F) (rest : List F) :
    (((Float64Cmp.lt y x && Float64Cmp.le Float64.zero z) ||
        (Float64Cmp.lt x y && Float64Cmp.le z Float64.zero)) = true →
      Arange (x :: y :: z :: rest) = .ok none) ∧
    (∀ c : Int,
      ((Float64Cmp.lt y x && Float64Cmp.le Float64.zero z) ||
        (Float64Cmp.lt x y && Float64Cmp.le z Float64.zero)) = false →
      Float64Cmp.toInt (Float64.div (Float64.sub y x) z) = c → 1 ≤ c → c < 2 ^ 63 →
      ∃ a, Arange (x :: y :: z :: rest) = .ok (some a) ∧ a.shape = [c.toNat] ∧
        a.data.length = c.toNat ∧ a.err = none ∧
        ∀ i, i < c.toNat → a.data[i]? = some ((fun w => Float64.add w z)^[i] x)) ∧
    Arange (x :: y :: z :: rest) = Arange [x, y, z] := by
  refine ⟨?_, ?_, ?_⟩
  · intro h
    simp only [Arange, h, if_true]
  · intro c h hc h1 h2
    obtain ⟨a, ha, hs, _, hl, he, hd⟩ := arangeRun_ok x y z c hc h1 h2
    exact ⟨a, by simp only [Arange, h, Bool.false_eq_true, if_false, ha], hs, hl, he, hd⟩
  · simp only [Arange]

/-- Instance of `arange_three`: `Arange(1, 10, 3, 99)` and the rejected
`Arange(1, 10, -3)`. -/
theorem arange_three_witness :
    (∃ a : Arrayf TinyFloat,
      Arange [TinyFloat.int 1, TinyFloat.int 10, TinyFloat.int 3, TinyFloat.int 99] =
        .ok (some a) ∧ a.shape = [3] ∧ a.data.length = 3 ∧ a.err = none ∧
      ∀ i, i < 3 →
        a.data[i]? = some ((fun w => Float64.add w (TinyFloat.int 3))^[i] (TinyFloat.int 1))) ∧
    Arange [TinyFloat.int 1, TinyFloat.int 10, TinyFloat.int (-3)] = .ok none ∧
    Arange [TinyFloat.int 1, TinyFloat.int 10, TinyFloat.int 3, TinyFloat.int 99] =
      .ok (some { shape := [3], strides := [3, 1],
                  data := [.int 1, .int 4, .int 7], err := none }) :=
  ⟨(arange_three (TinyFloat.int 1) (TinyFloat.int 10) (TinyFloat.int 3)
      [TinyFloat.int 99]).2.1 3 rfl rfl (by decide) (by decide),
   (arange_three (TinyFloat.int 1) (TinyFloat.int 10) (TinyFloat.int (-3)) []).1 rfl,
   by decide⟩

/-- C16, evaluated: for the empty error-tagged array `a` that `AddC` returns on an
absent receiver, `a.C()` is built by `create()` from the empty shape: it has one
element and the strides `(1)`, while `a` has no data and no strides, and its error
slot is empty while `a` carries `NilError`. The error is never copied: the copy of the
3×2 array tagged `ShapeError` has an empty error slot. -/
theorem copy_errored_outcome :
    (∃ a b : Arrayf TinyFloat, Arrayf.AddC none (TinyFloat.int 1) = .ok a ∧
      Arrayf.C (some a) = .ok (some b) ∧
      a.data.length = 0 ∧ b.data.length = 1 ∧ b.data.length ≠ a.data.length ∧
      a.strides = [] ∧ b.strides = [1] ∧ b.strides ≠ a.strides ∧
      a.err = some .NilError ∧ b.err = none) ∧
    (∃ b : Arrayf TinyFloat, Arrayf.C (some exE) = .ok (some b) ∧
      exE.err = some .ShapeError ∧ b.err = none) := by
  refine ⟨⟨⟨[], [], [], some .NilError⟩, ⟨[], [1], [.int 0], none⟩, rfl, by decide,
    by decide, by decide, by decide, rfl, rfl, by decide, rfl, rfl⟩,
    ⟨⟨exA.shape, exA.strides, exA.data, none⟩, by decide, rfl, rfl⟩⟩

/-- Behaviour of `C` on a non-absent array with positive extents whose stride table is
the one computed from its shape and whose data length is `product(shape)` modulo
`2^64` (what `Create` and `Reshape` establish): the copy has the shape and the strides
of the source and the same data, value by value. `C` on an absent receiver returns
nil. -/
theorem copy_of_wellformed {F : Type} [Float64 F] (a : Arrayf F)
    (hpos : ∀ e ∈ a.shape, 0 < e) (hlen : a.data.length = a.shape.prod % 2 ^ 64)
    (hst : a.strides = mkStrides a.shape) :
    (∃ b, Arrayf.C (some a) = .ok (some b) ∧ b.shape = a.shape ∧ b.strides = a.strides ∧
      b.data.length = a.data.length ∧ (∀ i : Nat, b.data[i]? = a.data[i]?)) ∧
    Arrayf.C (none : Option (Arrayf F)) = .ok none := by
  refine ⟨⟨{ shape := a.shape, strides := mkStrides a.shape, data := a.data, err := none },
    ?_, rfl, hst.symm, rfl, fun _ => rfl⟩, rfl⟩
  simp only [Arrayf.C, create_pos a.shape hpos]
  rw [copyLoop_full a.data _ (by simp [hlen])]

/-- Instance of `copy_of_wellformed`: the copy of the 3×2 array. -/
theorem copy_of_wellformed_witness :
    (∀ e ∈ exA.shape, 0 < e) ∧ exA.data.length = exA.shape.prod % 2 ^ 64 ∧
    exA.strides = mkStrides exA.shape ∧
    (∃ b, Arrayf.C (some exA) = .ok (some b) ∧ b.shape = exA.shape ∧
      b.strides = exA.strides ∧ b.data.length = exA.data.length ∧
      (∀ i : Nat, b.data[i]? = exA.data[i]?)) :=
  ⟨by decide, by decide, by decide,
    (copy_of_wellformed exA (by decide) (by decide) (by decide)).1⟩

/-- C17 as stated fails for an error-free array built with an overflowing product:
`t = Create(1<<32, 1<<32)` has no data, `Full(0, t.shape...)` is the error-free array
of the same shape without data, and `t.Add(Full(0, t.shape...))` computes
`mul := len(a.data) / len(b.data)` with a zero divisor and panics. -/
theorem add_zero_fill_counterexample :
    ∃ t z : Arrayf TinyFloat, Create [2 ^ 32, 2 ^ 32] = some t ∧ t.err = none ∧
      Full Float64.zero (t.shape.map (fun n : Nat => (n : Int))) = .ok (some z) ∧
      z.err = none ∧ z.shape = t.shape ∧
      Arrayf.Add (some t) (some z) = .panic .divByZero := by
  refine ⟨{ shape := [2 ^ 32, 2 ^ 32], strides := [0, 2 ^ 32, 1], data := [], err := none },
    { shape := [2 ^ 32, 2 ^ 32], strides := [0, 2 ^ 32, 1], data := [], err := none },
    by decide, rfl, by decide, rfl, rfl, by decide⟩

/-- C17, amended: for an error-free array `t` with positive extents and
`len(data) = product(shape)` below `2^63` (no overflow in its construction),
`Full(val, t.shape...)` is the error-free array of shape `t.shape` whose every element
is `0 + val`; `Full(0, t.shape...)` has every element `0 + 0`, which is `0` when
`0 + 0 = 0`; and `t.Add(Full(0, t.shape...))` returns `t` with shape, strides and
error slot as before and every element `x` replaced by `x + (0 + 0)`, so the array is
identical to before wherever `x + (0 + 0) = x` holds for its elements. -/
theorem add_zero_fill {F : Type} [Float64 F] (t : Arrayf F) (val : F)
    (ht : t.err = none) (hpos : ∀ e ∈ t.shape, 0 < e)
    (hlen : t.data.length = t.shape.prod) (hlt : t.shape.prod < 2 ^ 63) :
    (∃ f, Full val (t.shape.map (fun n : Nat => (n : Int))) = .ok (some f) ∧
      f.err = none ∧ f.shape = t.shape ∧ f.data.length = t.data.length ∧
      ∀ x ∈ f.data, x = Float64.add Float64.zero val) ∧
    (∃ z r, Full Float64.zero (t.shape.map (fun n : Nat => (n : Int))) = .ok (some z) ∧
      z.err = none ∧ z.shape = t.shape ∧
      (∀ x ∈ z.data, x = Float64.add (Float64.zero : F) Float64.zero) ∧
      (Float64.add (Float64.zero : F) Float64.zero = Float64.zero →
        ∀ x ∈ z.data, x = Float64.zero) ∧
      Arrayf.Add (some t) (some z) = .ok r ∧
      r.shape = t.shape ∧ r.strides = t.strides ∧ r.err = none ∧
      r.data = t.data.map (fun x => Float64.add x (Float64.add Float64.zero Float64.zero)) ∧
      ((∀ x ∈ t.data, Float64.add x (Float64.add Float64.zero Float64.zero) = x) →
        r = t)) := by
  have h64 : t.shape.prod < 2 ^ 64 := lt_trans hlt (by norm_num)
  have hP : 0 < t.data.length := by
    rw [hlen]
    exact prod_pos_of_pos _ hpos
  constructor
  · refine ⟨_, Full_pos val t.shape hpos h64, rfl, rfl, by simp [hlen], ?_⟩
    intro x hx
    exact (List.mem_replicate.1 hx).2
  · refine ⟨_, ⟨t.shape, t.strides,
        t.data.map (fun x => Float64.add x (Float64.add Float64.zero Float64.zero)), t.err⟩,
      Full_pos Float64.zero t.shape hpos h64, rfl, rfl, ?_, ?_, ?_, rfl, rfl, ht, rfl, ?_⟩
    · intro x hx
      exact (List.mem_replicate.1 hx).2
    · intro h0 x hx
      rw [(List.mem_replicate.1 hx).2, h0]
    · rw [show Arrayf.Add = BinOp.run (F := F) BinOp.Add from rfl,
        run_eq_checkedBroadcast BinOp.Add (by decide) t _ ht rfl (by simp),
        checkedBroadcast_match BinOp.Add.fn t
          { shape := t.shape, strides := mkStrides t.shape,
            data := List.replicate t.shape.prod (Float64.add Float64.zero Float64.zero),
            err := none } (List.suffix_refl _)]
      simp only [BinOp.fn]
      rw [← hlen, broadcast_replicate _ t.data _ hP]
    · intro hx
      have hm : t.data.map
          (fun x => Float64.add x (Float64.add Float64.zero Float64.zero)) = t.data := by
        conv_rhs => rw [← List.map_id t.data]
        exact List.map_congr_left (fun x hxm => by simp only [id_eq]; exact hx x hxm)
      rw [hm]

/-- Instance of `add_zero_fill`: the 3×2 array; in the carrier `x + (0 + 0) = x` holds
for its elements, and the array is unchanged. -/
theorem add_zero_fill_witness :
    exA.err = none ∧ (∀ e ∈ exA.shape, 0 < e) ∧ exA.data.length = exA.shape.prod ∧
    exA.shape.prod < 2 ^ 63 ∧
    (∃ z r, Full Float64.zero (exA.shape.map (fun n : Nat => (n : Int))) = .ok (some z) ∧
      z.err = none ∧ z.shape = exA.shape ∧
      (∀ x ∈ z.data, x = Float64.add (Float64.zero : TinyFloat) Float64.zero) ∧
      (Float64.add (Float64.zero : TinyFloat) Float64.zero = Float64.zero →
        ∀ x ∈ z.data, x = Float64.zero) ∧
      Arrayf.Add (some exA) (some z) = .ok r ∧
      r.shape = exA.shape ∧ r.strides = exA.strides ∧ r.err = none ∧
      r.data = exA.data.map
        (fun x => Float64.add x (Float64.add Float64.zero Float64.zero)) ∧
      ((∀ x ∈ exA.data, Float64.add x (Float64.add Float64.zero Float64.zero) = x) →
        r = exA)) ∧
    (∀ x ∈ exA.data, Float64.add x (Float64.add Float64.zero Float64.zero) = x) :=
  ⟨rfl, by decide, by decide, by decide,
    (add_zero_fill exA (TinyFloat.int 0) rfl (by decide) (by decide) (by decide)).2,
    by decide⟩

/-- C18 as stated fails: the array returned by an arithmetic operation on an absent
receiver has no shape, no strides and no data, so `len(data) = 0 ≠ 1 = product(shape)`,
`len(strides) = 0 ≠ len(shape)+1` and the shape is empty; `Create()` without extents
returns an array with an empty shape; and `Reshape()` without extents takes the
one-element array `Create(1)`, which satisfies the three conditions, to an array with
an empty shape. -/
theorem invariant_counterexample :
    (∃ r : Arrayf TinyFloat, Arrayf.AddC none (TinyFloat.int 1) = .ok r ∧
      r.data.length ≠ r.shape.prod ∧ r.strides.length ≠ r.shape.length + 1 ∧
      r.shape = [] ∧ ¬ r.Inv) ∧
    (∃ a : Arrayf TinyFloat, Create [] = some a ∧ a.shape = [] ∧ ¬ a.Inv) ∧
    (∃ a r : Arrayf TinyFloat, Create [1] = some a ∧ a.Inv ∧
      (Arrayf.Reshape (some a) []).2 = some r ∧ r.shape = [] ∧ ¬ r.Inv) := by
  refine ⟨⟨⟨[], [], [], some .NilError⟩, rfl, by decide, by decide, rfl, ?_⟩,
    ⟨⟨[], [1], [.int 0], none⟩, by decide, rfl, ?_⟩,
    ⟨⟨[1], [1, 1], [.int 0], none⟩, ⟨[], [1], [.int 0], none⟩, by decide, ?_, by decide, rfl, ?_⟩⟩
  · unfold Arrayf.Inv
    decide
  · unfold Arrayf.Inv
    decide
  · unfold Arrayf.Inv
    decide
  · unfold Arrayf.Inv
    decide

/-- C18, amended. The three conditions `len(data) = product(shape)`,
`len(strides) = len(shape)+1` and a non-empty shape hold for the array returned by
`Create` and by `Full` for at least one extent, all positive, with a product that does
not overflow 64 bits, and for every array returned by `Arange`. They are preserved:
`Reshape` with at least one extent and a product that does not overflow returns nil or
an array that satisfies them; `C` on an array that satisfies them and has positive
extents returns one that satisfies them; every scalar operation on an array that
satisfies them returns one that satisfies them; every binary operation on such an
array returns whenever the operand is non-absent, error-free and has data, and
whatever it returns satisfies them. -/
theorem invariant_kept {F : Type} [Float64Cmp F] :
    (∀ (shape : List Int) (val : F), shape ≠ [] → (∀ v ∈ shape, 0 < v) →
      shape.prod < 2 ^ 64 →
      (∃ a : Arrayf F, Create shape = some a ∧ a.Inv) ∧
      (∃ f : Arrayf F, Full val shape = .ok (some f) ∧ f.Inv)) ∧
    (∀ (vals : List F) (a : Arrayf F), Arange vals = .ok (some a) → a.Inv) ∧
    (∀ (a r : Arrayf F) (shape : List Int), a.data.length < 2 ^ 63 → shape ≠ [] →
      shape.prod < 2 ^ 64 → (Arrayf.Reshape (some a) shape).2 = some r → r.Inv) ∧
    (∀ a : Arrayf F, a.Inv → (∀ e ∈ a.shape, 0 < e) → a.data.length < 2 ^ 63 →
      ∃ b, Arrayf.C (some a) = .ok (some b) ∧ b.Inv) ∧
    (∀ a : Arrayf F, a.Inv →
      (∀ (o : ScalarOp) (c : F), ∃ r, o.run (some a) c = .ok r ∧ r.Inv) ∧
      (∀ (o : BinOp) (b : Arrayf F), b.err = none → 0 < b.data.length →
        ∃ r, o.run (some a) (some b) = .ok r ∧ r.Inv) ∧
      (∀ (o : BinOp) (b : Option (Arrayf F)) (r : Arrayf F),
        o.run (some a) b = .ok r → r.Inv)) := by
  have frame : ∀ a r : Arrayf F, a.Inv → r.shape = a.shape → r.strides = a.strides →
      r.data.length = a.data.length → r.Inv := by
    intro a r hi h1 h2 h3
    unfold Arrayf.Inv at hi ⊢
    rw [h1, h2, h3]
    exact hi
  refine ⟨?_, Arange_inv, ?_, ?_, ?_⟩
  · intro shape val hne hpos hprod
    have hs : shape.map Int.toNat ≠ [] := by simpa using hne
    have hc := Create_exact (F := F) shape hpos hprod
    refine ⟨⟨_, hc, by simp [Arrayf.Inv], (mkStrides_ok _).1, hs⟩, ?_⟩
    refine ⟨⟨shape.map Int.toNat, mkStrides (shape.map Int.toNat),
      (List.replicate (shape.map Int.toNat).prod Float64.zero).map
        (fun x => Float64.add x val), none⟩, ?_, by simp [Arrayf.Inv], (mkStrides_ok _).1, hs⟩
    simp [Full, hc, Arrayf.AddC]
  · intro a r shape hlen hne hprod h
    exact Reshape_inv a r shape h hne hprod hlen
  · intro a hi hpos hlen
    have hmod : a.data.length = a.shape.prod % 2 ^ 64 := by
      rw [← hi.1, Nat.mod_eq_of_lt (lt_trans hlen (by norm_num))]
    exact ⟨_, C_pos a hpos hmod, hi.1, (mkStrides_ok _).1, hi.2.2⟩
  · intro a hi
    refine ⟨?_, ?_, ?_⟩
    · intro o c
      obtain ⟨r, hr, h1, h2, h3⟩ := scalarop_frame o a c
      exact ⟨r, hr, frame a r hi h1 h2 h3⟩
    · intro o b hb hL
      obtain ⟨r, hr⟩ := binop_returns o a b hb hL
      obtain ⟨h1, h2, h3⟩ := binop_frame o a (some b) r hr
      exact ⟨r, hr, frame a r hi h1 h2 h3⟩
    · intro o b r hr
      obtain ⟨h1, h2, h3⟩ := binop_frame o a b r hr
      exact frame a r hi h1 h2 h3

/-- Instance of `invariant_kept`: `Create(3, 4)`, `Full(1, 3, 4)`, `Arange(5)`, and
the operations applied to the 3×2 array. -/
theorem invariant_kept_witness :
    exA.Inv ∧
    ((∃ a : Arrayf TinyFloat, Create [3, 4] = some a ∧ a.Inv) ∧
      (∃ f : Arrayf TinyFloat, Full (TinyFloat.int 1) [3, 4] = .ok (some f) ∧ f.Inv)) ∧
    (∃ a : Arrayf TinyFloat, Arange [TinyFloat.int 5] = .ok (some a) ∧ a.Inv) ∧
    (∃ r, (Arrayf.Reshape (some exA) [2, 3]).2 = some r ∧ r.Inv) ∧
    (∃ b, Arrayf.C (some exA) = .ok (some b) ∧ b.Inv) ∧
    (∀ (o : ScalarOp) (c : TinyFloat), ∃ r, o.run (some exA) c = .ok r ∧ r.Inv) ∧
    (∀ o : BinOp, ∃ r, o.run (some exA) (some exB) = .ok r ∧ r.Inv) :=
  have hA : exA.Inv := by unfold Arrayf.Inv; decide
  ⟨hA,
   (invariant_kept (F := TinyFloat)).1 [3, 4] (TinyFloat.int 1) (by decide) (by decide)
     (by decide),
   ⟨⟨[5], [5, 1], [.int 0, .int 1, .int 2, .int 3, .int 4], none⟩, by decide,
     (invariant_kept (F := TinyFloat)).2.1 [TinyFloat.int 5] _ (by decide)⟩,
   ⟨⟨[2, 3], [6, 3, 1], exA.data, none⟩, by decide,
     (invariant_kept (F := TinyFloat)).2.2.1 exA _ [2, 3] (by decide) (by decide)
       (by decide) (by decide)⟩,
   (invariant_kept (F := TinyFloat)).2.2.2.1 exA hA (by decide) (by decide),
   ((invariant_kept (F := TinyFloat)).2.2.2.2 exA hA).1,
   fun o => ((invariant_kept (F := TinyFloat)).2.2.2.2 exA hA).2.1 o exB rfl (by decide)⟩

/-- C19: for Add, Subtr, Mult and Pow on an error-free receiver `a` and an error-free
operand `b` with `len(b.data) = product(b.shape)`, positive operand extents and
`b.shape` a trailing suffix of `a.shape` (any number `mul = len(a.data)/len(b.data)` of
tiles):
the worker of tile `k`, run on any buffer of the receiver's length, changes only the
indices in `[k·len(b.data), (k+1)·len(b.data))` and the new value of such an index
depends only on its old value and on `b.data`; the ranges of distinct tiles are
disjoint; and running the `mul` workers in the order of any permutation of
`0, …, mul-1` yields the buffer that the operation returns. -/
theorem tiles_any_order {F : Type} [Float64 F] (a b : Arrayf F)
    (ha : a.err = none) (hb : b.err = none)
    (hdb : b.data.length = b.shape.prod)
    (hpos : ∀ e ∈ b.shape, 0 < e) (hs : b.shape <:+ a.shape) :
    (∀ k k2 j, k ≠ k2 → k * b.data.length ≤ j → j < (k + 1) * b.data.length →
      ¬ (k2 * b.data.length ≤ j ∧ j < (k2 + 1) * b.data.length)) ∧
    ∀ o ∈ [BinOp.Add, BinOp.Subtr, BinOp.Mult, BinOp.Pow],
      (∀ (k : Nat) (ad : List F), k < a.data.length / b.data.length →
        ad.length = a.data.length →
        ∃ r1, tileLoop o.fn (k * b.data.length) b.data 0 ad = .ok r1 ∧
          (∀ j, j < k * b.data.length ∨ (k + 1) * b.data.length ≤ j → r1[j]? = ad[j]?) ∧
          (∀ t v, b.data[t]? = some v →
            r1[k * b.data.length + t]? =
              (ad[k * b.data.length + t]?).map (fun x => o.fn x v))) ∧
      (∀ ks : List Nat, ks.Perm (List.range (a.data.length / b.data.length)) →
        ∃ r, o.run (some a) (some b) = .ok r ∧
          tilesIn o.fn b.data ks a.data = .ok r.data ∧
          tilesIn o.fn b.data (List.range (a.data.length / b.data.length)) a.data =
            .ok r.data) := by
  have hL : 0 < b.data.length := by
    rw [hdb]
    exact prod_pos_of_pos _ hpos
  refine ⟨fun k k2 j hne h1 h2 => tile_disjoint _ k k2 j hne h1 h2, ?_⟩
  intro o ho
  have hne : o ≠ .Div := by
    intro h
    subst h
    simp at ho
  constructor
  · intro k ad hk hlen
    have hle : (k + 1) * b.data.length ≤ ad.length := by
      rw [hlen]
      exact le_trans (Nat.mul_le_mul_right _ hk) (Nat.div_mul_le_self _ _)
    have hk1 : (k + 1) * b.data.length = k * b.data.length + b.data.length := by ring
    obtain ⟨r1, hr1, _, hout, hin⟩ := tileLoop_ok o.fn (k * b.data.length) b.data 0 ad (by omega)
    refine ⟨r1, hr1, fun j hj => hout j (by omega), fun t v hv => ?_⟩
    have := hin t v hv
    simpa [Nat.zero_add] using this
  · intro ks hp
    obtain ⟨d, hd, _⟩ := broadcast_ok o.fn a.data b.data hL
    refine ⟨{ a with data := d }, ?_, ?_, ?_⟩
    · rw [run_eq_checkedBroadcast o hne a b ha hb (by have := hs.length_le; omega),
        checkedBroadcast_match _ a b hs, hd]
    · rw [tilesIn_perm o.fn a.data b.data hL ks hp, hd]
    · rw [tilesIn_perm o.fn a.data b.data hL _ (List.Perm.refl _), hd]

/-- Instance of `tiles_any_order`: the 3×2 receiver, the 2-element operand and the
tile order 2, 0, 1. -/
theorem tiles_any_order_witness :
    exA.err = none ∧ exB.err = none ∧
    exB.data.length = exB.shape.prod ∧ (∀ e ∈ exB.shape, 0 < e) ∧
    exB.shape <:+ exA.shape ∧
    [2, 0, 1].Perm (List.range (exA.data.length / exB.data.length)) ∧
    (∃ r, Arrayf.Add (some exA) (some exB) = .ok r ∧
      tilesIn Float64.add exB.data [2, 0, 1] exA.data = .ok r.data ∧
      tilesIn Float64.add exB.data (List.range (exA.data.length / exB.data.length))
        exA.data = .ok r.data) :=
  ⟨rfl, rfl, by decide, by decide, by decide, by decide,
    ((tiles_any_order exA exB rfl rfl (by decide) (by decide) (by decide)).2
      BinOp.Add (by decide)).2 [2, 0, 1] (by decide)⟩

/-- C20, evaluated: `Arange` does not test the result of `Create`. Whenever the
arguments are not rejected and the count `int((stop - start) / step)` is `≤ 0`,
`Create` returns nil and the loop condition `i < len(a.data)` dereferences it, so the
call panics: `Arange(0)`, a single argument whose count is 0 (strictly between 0 and
1), two arguments with a count `≤ 0` (such as `start = stop`), and three arguments
that pass the sign test with a count `≤ 0`. -/
theorem arange_panics {F : Type} [Float64Cmp F] :
    (Float64Cmp.le (Float64.zero : F) Float64.zero = true →
      Float64Cmp.toInt
        (Float64.div (Float64.sub (Float64.zero : F) Float64.zero) Float64Cmp.negOne) ≤ 0 →
      Arange [(Float64.zero : F)] = .panic .nilDeref) ∧
    (∀ x : F, Float64Cmp.le x Float64.zero = false →
      Float64Cmp.toInt (Float64.div (Float64.sub x Float64.zero) Float64Cmp.one) ≤ 0 →
      Arange [x] = .panic .nilDeref) ∧
    (∀ x y : F,
      Float64Cmp.toInt (Float64.div (Float64.sub y x)
        (if Float64Cmp.lt y x then Float64Cmp.negOne else Float64Cmp.one)) ≤ 0 →
      Arange [x, y] = .panic .nilDeref) ∧
    (∀ (x y z : F) (rest : List F),
      ((Float64Cmp.lt y x && Float64Cmp.le Float64.zero z) ||
        (Float64Cmp.lt x y && Float64Cmp.le z Float64.zero)) = false →
      Float64Cmp.toInt (Float64.div (Float64.sub y x) z) ≤ 0 →
      Arange (x :: y :: z :: rest) = .panic .nilDeref) := by
  refine ⟨?_, ?_, ?_, ?_⟩
  · intro hle hc
    simp only [Arange, hle, if_true, arangeRun_panic _ _ _ hc]
  · intro x hle hc
    simp only [Arange, hle, Bool.false_eq_true, if_false, arangeRun_panic _ _ _ hc]
  · intro x y hc
    simp only [Arange, arangeRun_panic _ _ _ hc]
  · intro x y z rest h hc
    simp only [Arange, h, Bool.false_eq_true, if_false, arangeRun_panic _ _ _ hc]

/-- Instance of `arange_panics`: `Arange(0)`, `Arange(2, 2)`, `Arange(2, 2, 1)` and
`Arange(0, 1, 2)`, whose counts are 0. -/
theorem arange_panics_witness :
    Arange [TinyFloat.int 0] = .panic .nilDeref ∧
    Arange [TinyFloat.int 2, TinyFloat.int 2] = .panic .nilDeref ∧
    Arange [TinyFloat.int 2, TinyFloat.int 2, TinyFloat.int 1] = .panic .nilDeref ∧
    Arange [TinyFloat.int 0, TinyFloat.int 1, TinyFloat.int 2] = .panic .nilDeref :=
  ⟨(arange_panics (F := TinyFloat)).1 rfl (by decide),
   (arange_panics (F := TinyFloat)).2.2.1 (TinyFloat.int 2) (TinyFloat.int 2) (by decide),
   (arange_panics (F := TinyFloat)).2.2.2 (TinyFloat.int 2) (TinyFloat.int 2) (TinyFloat.int 1)
     [] rfl (by decide),
   (arange_panics (F := TinyFloat)).2.2.2 (TinyFloat.int 0) (TinyFloat.int 1) (TinyFloat.int 2)
     [] rfl (by decide)⟩

end numgo
